import Mathlib

/-!
A verification development for `src/cachelab.c`, an LRU cache simulator.

The C program keeps, per cache set, a doubly linked list of `cache_block` nodes
(`LRU_head` = most recently used, `LRU_tail` = least recently used).  We embed
the mutable heap of blocks as an association list from allocation identifiers
(the model of `cache_block*` pointer values) to block records; a null pointer is
`none` and a non-null pointer `p` is `some p`.  Every pointer dereference goes
through `Option`: dereferencing a null (or unallocated) pointer makes the whole
call return `none`, modelling the C program crashing.  The program never
compares, prints, or does arithmetic on pointer values, so representing `malloc`
results as arbitrary unused naturals is observationally faithful; `accessData`
takes the identifier chosen for its (at most one) `malloc` as an explicit
argument, subject to malloc's freshness contract.

Machine integers: `mem_addr_t` is `unsigned long long` (64 bits), so an address
value is `addr % 2^64`.  The block field `tag` and the local `tag` in
`accessData` are C `int`s: storing `addr >> (s+b)` into them keeps only the low
32 bits, so the model stores tag *bit patterns* as naturals `< 2^32` (the
sentinel's `-1` is the pattern `2^32 - 1`); `==` on two `int` patterns is
equality of the naturals.  The counters only ever grow by one and are `Nat`.
-/

namespace Cachelab

/-- A `cache_block` (cachelab.c lines 31-37).  `tag : int` is stored as its
32-bit pattern; `valid : int` only ever holds 0/1 and is modeled as `Bool`;
`next`/`prev` are pointers (`none` = `NULL`). -/
structure Node where
  tag : Nat
  valid : Bool
  next : Option Nat
  prev : Option Nat
deriving DecidableEq, Repr

/-- The heap of allocated blocks: pointer identifier ↦ block contents. -/
abbrev Heap := List (Nat × Node)

/-- A `cache_set` (lines 40-44). -/
structure SetHT where
  head : Option Nat
  tail : Option Nat
deriving DecidableEq, Repr

/-- The global mutable state of the simulator: the heap of blocks, `c1.sets`,
the `size` array and the three statistics counters (lines 89-100). -/
structure CacheState where
  heap : Heap
  sets : List SetHT
  size : List Nat
  hits : Nat
  misses : Nat
  evictions : Nat
deriving DecidableEq, Repr

/-- Read the block a live pointer refers to. -/
def hget : Heap → Nat → Option Node
  | [], _ => none
  | (b, n) :: t, a => if a = b then some n else hget t a

/-- Update the block at a pointer (first occurrence). -/
def hmod : Heap → Nat → (Node → Node) → Heap
  | [], _, _ => []
  | (b, n) :: t, a, f => if a = b then (b, f n) :: t else (b, n) :: hmod t a f

/-- A field assignment `p->fld = v` through a (non-null) pointer; `none` if the
cell is not allocated (in C that write would be undefined behaviour). -/
def hmodM (h : Heap) (a : Nat) (f : Node → Node) : Option Heap :=
  match hget h a with
  | none => none
  | some _ => some (hmod h a f)

/-- `free` of an allocated cell. -/
def hfree : Heap → Nat → Heap
  | [], _ => []
  | (b, n) :: t, a => if a = b then t else (b, n) :: hfree t a

/-- The currently allocated pointer identifiers. -/
def keys (h : Heap) : List Nat := h.map Prod.fst

/-- Line 120: `set_index = (addr >> b) & ((1<<s) - 1)` on the 64-bit `addr`. -/
def setIndexOf (s b addr : Nat) : Nat := ((addr % 2 ^ 64) >>> b) &&& ((1 <<< s) - 1)

/-- Line 121: `int tag = (addr >> (s + b));` — the right shift of the 64-bit
address is truncated to the 32 bits of an `int`. -/
def tagOf (s b addr : Nat) : Nat := ((addr % 2 ^ 64) >>> (s + b)) % 2 ^ 32

/-- The search loop, lines 125-129: `while (curr->next != NULL && curr->tag !=
tag) curr = curr->next;`.  Returns the pointer at which the loop stops; `none`
models a crash (null/dead dereference), or fuel exhaustion — impossible in the
states the program reaches, where the fuel `heap.length + 1` exceeds every chain
length. -/
def findCurr (h : Heap) (tag : Nat) : Nat → Nat → Option Nat
  | 0, _ => none
  | fuel + 1, a =>
    match hget h a with
    | none => none
    | some n =>
      match n.next with
      | none => some a
      | some a2 => if n.tag = tag then some a else findCurr h tag fuel a2

/-- Lines 171-179 of `accessData`: `if (size[set_index] >= E)` delete the tail
block — `temp = LRU_tail; LRU_tail = LRU_tail->prev; free(temp);
LRU_tail->next = NULL; eviction_count++; size--;`.  Takes the heap, the
current `LRU_tail`, size and eviction counter; returns their new values
(`none` = crash: with `LRU_tail->prev == NULL`, line 176 dereferences NULL). -/
def evictIfFull (E : Nat) (h : Heap) (tailP : Option Nat) (sz ev : Nat) :
    Option (Heap × Option Nat × Nat × Nat) :=
  if E ≤ sz then                                      -- line 171
    match tailP with
    | none => none                                    -- temp = NULL; line 174 crashes
    | some tAddr =>
    match hget h tAddr with                           -- line 174: LRU_tail->prev
    | none => none
    | some tn =>
    match tn.prev with
    | none => none                                    -- line 176: LRU_tail is NULL → crash
    | some p2 =>
    match hmodM (hfree h tAddr) p2 (fun m => { m with next := none }) with
      -- lines 175-176: free(temp); LRU_tail->next = NULL
    | none => none
    | some h2 =>
    some (h2, some p2, sz - 1, ev + 1)                -- lines 174, 177, 178
  else some (h, tailP, sz, ev)

/-- `accessData` (lines 113-193): one cache access at `addr`.  `newId` is the
pointer value `malloc` returns if the call allocates (line 181); malloc's
contract is that it is not a currently allocated cell.  Returns `none` when the
C code dereferences a null or dead pointer. -/
def accessData (s b E : Nat) (newId : Nat) (addr : Nat) (st : CacheState) :
    Option CacheState :=
  let si := setIndexOf s b addr                       -- line 120
  let tag := tagOf s b addr                           -- line 121
  match st.sets[si]? with                             -- line 122: c1.sets[set_index]
  | none => none
  | some sh =>
  match sh.head with
  | none => none                                      -- curr = NULL would crash in the loop
  | some a0 =>
  match findCurr st.heap tag (st.heap.length + 1) a0 with  -- lines 125-129
  | none => none
  | some curr =>
  match hget st.heap curr with
  | none => none
  | some n =>
  match st.size[si]? with
  | none => none
  | some sz =>
  if n.tag = tag ∧ n.valid = true then                -- line 131
    -- hit (lines 132-158)
    if 1 < sz then                                    -- line 134
      match n.prev with
      | none => some { st with hits := st.hits + 1 }  -- line 136: treated as hit at head
      | some p =>
        match n.next with
        | some _ =>
          -- middle of the list (lines 138-145)
          match hmodM st.heap p (fun m => { m with next := n.next }) with      -- line 140
          | none => none
          | some h1 =>
          match hget h1 curr with                                              -- line 141 rereads curr
          | none => none
          | some n1 =>
          match n1.next with
          | none => none
          | some nx =>
          match hmodM h1 nx (fun m => { m with prev := n1.prev }) with         -- line 141
          | none => none
          | some h2 =>
          match hmodM h2 curr (fun m => { m with next := some a0 }) with       -- line 142
          | none => none
          | some h3 =>
          match hmodM h3 curr (fun m => { m with prev := none }) with          -- line 143
          | none => none
          | some h4 =>
          some { st with
                 heap := h4
                 sets := st.sets.set si { sh with head := some curr }  -- line 144
                 hits := st.hits + 1 }
        | none =>
          -- tail of the list (lines 146-154)
          match hmodM st.heap p (fun m => { m with next := none }) with        -- line 148
          | none => none
          | some h1 =>
          match hget h1 curr with                                              -- line 149 rereads curr
          | none => none
          | some n1 =>
          match hmodM h1 curr (fun m => { m with prev := none }) with          -- line 150
          | none => none
          | some h2 =>
          match hmodM h2 a0 (fun m => { m with prev := some curr }) with       -- line 151
          | none => none
          | some h3 =>
          match hmodM h3 curr (fun m => { m with next := some a0 }) with       -- line 152
          | none => none
          | some h4 =>
          some { st with
                 heap := h4
                 sets := st.sets.set si { head := some curr, tail := n1.prev }  -- 149,153
                 hits := st.hits + 1 }
    else some { st with hits := st.hits + 1 }         -- size ≤ 1: no structural change
  else
    -- miss (lines 159-192)
    if sz = 0 then
      -- set empty: the sentinel block is reused (lines 161-168)
      match hmodM st.heap curr (fun m => { m with tag := tag, valid := true }) with -- 163-164
      | none => none
      | some h1 =>
      some { st with
             heap := h1
             sets := st.sets.set si { head := some curr, tail := some curr }  -- 165-166
             size := st.size.set si (sz + 1)                                  -- line 167
             misses := st.misses + 1 }                                        -- line 191
    else
      -- set not empty (lines 169-190): optional eviction, then insertion
      match evictIfFull E st.heap sh.tail sz st.evictions with
      | none => none
      | some (h2, tl2, sz2, ev2) =>
      -- insert a new block before the head (lines 180-189)
      if newId ∈ keys h2 then none                    -- malloc yields an unallocated cell
      else
        match hmodM h2 a0 (fun m => { m with prev := some newId }) with        -- line 183
        | none => none
        | some h3 =>
        some { st with
               heap :=
                 (newId, { tag := tag, valid := true, next := some a0, prev := none })
                   :: h3                                                      -- 181,184-187
               sets := st.sets.set si { head := some newId, tail := tl2 }     -- line 188
               size := st.size.set si (sz2 + 1)                               -- line 189
               misses := st.misses + 1                                        -- line 191
               evictions := ev2 }

/-- The sentinel block each set starts with (lines 264-268): `tag = -1` (the
`int` pattern `2^32 - 1`), invalid, no links. -/
def sentinel : Node := { tag := 2 ^ 32 - 1, valid := false, next := none, prev := none }

/-- Cache construction in `main` (lines 250-270): `2^s` sets, each holding one
sentinel block; all sizes 0.  `LRU_tail` is never initialised by the C code and
is never read before its first assignment; it is modeled as `none`. -/
def freshCache (s : Nat) : CacheState :=
  { heap := (List.range (2 ^ s)).map (fun i => (i, sentinel))
    sets := (List.range (2 ^ s)).map (fun i => { head := some i, tail := none })
    size := List.replicate (2 ^ s) 0
    hits := 0, misses := 0, evictions := 0 }

/-- A pointer value unused by any allocated block (strictly greater than every
allocated identifier), the canonical `malloc` choice. -/
def freshId (h : Heap) : Nat := (keys h).foldr (fun a m => max (a + 1) m) 0

/-- Run a sequence of accesses, the allocator `g` choosing each `malloc` result. -/
def runAddrsA (s b E : Nat) (g : CacheState → Nat) :
    List Nat → CacheState → Option CacheState
  | [], st => some st
  | a :: rest, st =>
    match accessData s b E (g st) a st with
    | none => none
    | some st2 => runAddrsA s b E g rest st2

/-- Run a sequence of accesses with the canonical fresh allocator. -/
def runAddrs (s b E : Nat) : List Nat → CacheState → Option CacheState :=
  runAddrsA s b E (fun st => freshId st.heap)

/-- A parsed trace record (`replayTrace`, lines 326-336). -/
inductive TraceRec where
  | load (addr : Nat)
  | store (addr : Nat)
  | modify (addr : Nat)
  | instr (addr : Nat)
deriving DecidableEq, Repr

/-- The accesses a record triggers: `L`/`S` access once, `M` twice
(lines 330-334), `I` lines are skipped (line 327). -/
def recAddrs : TraceRec → List Nat
  | .load a => [a]
  | .store a => [a]
  | .modify a => [a, a]
  | .instr _ => []

/-- How many cache accesses a record performs. -/
def accessCount (r : TraceRec) : Nat := (recAddrs r).length

/-- `replayTrace` (lines 314-340) with an arbitrary allocator. -/
def replayTraceA (s b E : Nat) (g : CacheState → Nat) (recs : List TraceRec)
    (st : CacheState) : Option CacheState :=
  runAddrsA s b E g (recs.map recAddrs).flatten st

/-- `replayTrace` with the canonical fresh allocator. -/
def replayTrace (s b E : Nat) (recs : List TraceRec) (st : CacheState) :
    Option CacheState :=
  replayTraceA s b E (fun st => freshId st.heap) recs st

/-- The observable outcome: the three counters printed by `printSummary`. -/
def observe : Option CacheState → Option (Nat × Nat × Nat) :=
  Option.map (fun st => (st.hits, st.misses, st.evictions))

/-- Walk a set's list from a pointer following `next` (fuel-bounded observer). -/
def chaseChain (h : Heap) : Nat → Option Nat → List (Nat × Node)
  | 0, _ => []
  | _ + 1, none => []
  | fuel + 1, some a =>
    match hget h a with
    | none => []
    | some n => (a, n) :: chaseChain h fuel n.next

/-- The blocks of set `i`, in list order (most recently used first). -/
def setChain (st : CacheState) (i : Nat) : List (Nat × Node) :=
  match st.sets[i]? with
  | none => []
  | some sh => chaseChain st.heap (st.heap.length + 1) sh.head

/-- The tags of the valid blocks of set `i`, in list order. -/
def setTags (st : CacheState) (i : Nat) : List Nat :=
  ((setChain st i).filter (fun p => p.2.valid)).map (fun p => p.2.tag)

/-- How many valid blocks set `i` holds. -/
def validCount (st : CacheState) (i : Nat) : Nat :=
  ((setChain st i).filter (fun p => p.2.valid)).length

/-- The two §3 set invariants quoted by the spec: each set holds at most `E`
valid blocks, and no two valid blocks of a set share a tag. -/
def SetInvariants (E : Nat) (st : CacheState) : Prop :=
  ∀ i < st.sets.length, validCount st i ≤ E ∧ (setTags st i).Nodup

instance (E : Nat) (st : CacheState) : Decidable (SetInvariants E st) :=
  Nat.decidableBallLT st.sets.length _

/-- Modelled from the spec: “the Block evicted is exactly the one that was least
recently accessed among that Set's current occupants” (§8, eviction
correctness).  `lastUse past t` is the (1-based) position of the most recent
access to tag `t` in the list `past` of tags accessed so far; the least recently
used occupant minimises it. -/
def lastUse (past : List Nat) (t : Nat) : Nat := past.length - past.reverse.indexOf t

/-- Modelled from the spec: the least recently accessed tag among `occupants`. -/
def leastRecentlyUsedTag (past : List Nat) (occupants : List Nat) : Option Nat :=
  occupants.argmin (lastUse past)

/-- The state reached from a fresh s=1, E=1, b=1 cache by one access to address
0: set 0's sentinel became the valid block with tag 0. -/
def stOneBlock : CacheState :=
  { heap := [(0, { tag := 0, valid := true, next := none, prev := none }),
             (1, sentinel)]
    sets := [{ head := some 0, tail := some 0 }, { head := some 1, tail := none }]
    size := [1, 0]
    hits := 0, misses := 1, evictions := 0 }

/-- The state `stOneBlock` after one further hit (by one more access to
address 0): only the hit counter moves. -/
def stOneBlockHit : CacheState :=
  { stOneBlock with hits := 1 }

/-- The state reached from a fresh s=0, b=0, E=2 cache by replaying a Load of
0, a Modify of 4 and an Instruction record. -/
def stLoadModify : CacheState :=
  { heap := [(1, { tag := 4, valid := true, next := some 0, prev := none }),
             (0, { tag := 0, valid := true, next := none, prev := some 1 })]
    sets := [{ head := some 1, tail := some 0 }]
    size := [2]
    hits := 1, misses := 2, evictions := 0 }

/-- The state reached from a fresh s=0, b=0, E=2 cache by one access to
address 4 (its sentinel filled). -/
def stFill : CacheState :=
  { heap := [(0, { tag := 4, valid := true, next := none, prev := none })]
    sets := [{ head := some 0, tail := some 0 }]
    size := [1]
    hits := 0, misses := 1, evictions := 0 }

/-! ### Proof-side structures: chains, invariants, pointer renaming -/

/-- The pointer of the last element of a segment, or `pa` if it is empty. -/
def endPtr (pa : Option Nat) (l : List (Nat × Node)) : Option Nat :=
  match l.getLast? with
  | none => pa
  | some x => some x.1

/-- A well-formed stretch of a set's doubly linked list: `c` pairs each pointer
with its block, `pa` is the pointer of the element just before the stretch
(`none` at the list head), `aft` the value of the last element's `next` (`NULL`
for a full list).  Each block's `next` points to the following element; each
block's `prev` is either its true predecessor or `NULL` — the stale value that
the promotion at lines 140-144 leaves in the demoted head. -/
def ChainSeg (h : Heap) : Option Nat → Option Nat → List (Nat × Node) → Prop
  | _, _, [] => True
  | pa, aft, (a, n) :: rest =>
    hget h a = some n ∧ (n.prev = none ∨ n.prev = pa)
    ∧ (match rest with
       | [] => n.next = aft
       | (a2, _) :: _ => n.next = some a2)
    ∧ ChainSeg h (some a) aft rest

/-- The keys of a chain. -/
def chainKeys (c : List (Nat × Node)) : List Nat := c.map Prod.fst

/-- Well-formedness of one cache set: the chain `c` is its `next`-linked list
from `LRU_head` with `LRU_head`, `LRU_tail` and `size` consistent.  A set of
size 0 holds exactly its invalid sentinel; a non-empty set holds exactly
`sz ≤ E` valid blocks with pairwise distinct tags, its tail being the last
list element. -/
def SetOk (h : Heap) (E : Nat) (sh : SetHT) (sz : Nat) (c : List (Nat × Node)) : Prop :=
  ChainSeg h none none c
  ∧ (chainKeys c).Nodup
  ∧ (∃ x rest, c = x :: rest ∧ sh.head = some x.1)
  ∧ (if sz = 0 then
       sh.tail = none ∧ c.length = 1 ∧ (∀ p ∈ c, p.2.valid = false)
     else
       (∃ x, c.getLast? = some x ∧ sh.tail = some x.1)
       ∧ c.length = sz ∧ sz ≤ E
       ∧ (∀ p ∈ c, p.2.valid = true)
       ∧ (c.map (fun p => p.2.tag)).Nodup)

/-- The inductive invariant of the whole simulator state: `2^s` sets, each
well formed with its own chain; the chains have pairwise disjoint pointers
and together own every allocated block. -/
def Inv (s E : Nat) (st : CacheState) : Prop :=
  ∃ cs : List (List (Nat × Node)),
    cs.length = 2 ^ s
    ∧ st.sets.length = 2 ^ s
    ∧ st.size.length = 2 ^ s
    ∧ (keys st.heap).Nodup
    ∧ (∀ (i : Nat) (sh : SetHT) (szv : Nat) (c : List (Nat × Node)),
         st.sets[i]? = some sh → st.size[i]? = some szv → cs[i]? = some c →
         SetOk st.heap E sh szv c)
    ∧ (∀ (i j : Nat) (ci cj : List (Nat × Node)), i ≠ j → cs[i]? = some ci →
         cs[j]? = some cj → ∀ k ∈ chainKeys ci, k ∉ chainKeys cj)
    ∧ (∀ k ∈ keys st.heap, ∃ (i : Nat) (ci : List (Nat × Node)),
         cs[i]? = some ci ∧ k ∈ chainKeys ci)

/-- Rename every pointer a node holds. -/
def renameNode (r : Nat → Nat) (n : Node) : Node :=
  { n with next := n.next.map r, prev := n.prev.map r }

/-- Rename every pointer of a heap: cell identifiers and link fields. -/
def renameHeap (r : Nat → Nat) (h : Heap) : Heap :=
  h.map (fun p => (r p.1, renameNode r p.2))

/-- Rename a set's head and tail pointers. -/
def renameSet (r : Nat → Nat) (sh : SetHT) : SetHT :=
  { head := sh.head.map r, tail := sh.tail.map r }

/-- Rename every pointer of a simulator state; the counters are untouched. -/
def renameState (r : Nat → Nat) (st : CacheState) : CacheState :=
  { st with heap := renameHeap r st.heap, sets := st.sets.map (renameSet r) }

/-- A model of malloc's contract: the allocator never returns a live cell. -/
def ValidAlloc (g : CacheState → Nat) : Prop := ∀ st, g st ∉ keys st.heap

/-- A pointer value is valid: `NULL` or an allocated cell. -/
def PtrOk (h : Heap) : Option Nat → Prop
  | none => True
  | some a => a ∈ keys h

/-- Every pointer the state mentions refers to an allocated cell. -/
def PtrClosed (st : CacheState) : Prop :=
  (∀ p ∈ st.heap, PtrOk st.heap p.2.next ∧ PtrOk st.heap p.2.prev)
  ∧ ∀ sh ∈ st.sets, PtrOk st.heap sh.head ∧ PtrOk st.heap sh.tail

/-- The state after loads of 0, 1, 16 on a fresh s=0, b=0, E=2 cache: three
misses and one eviction. -/
def stRun3 : CacheState :=
  { heap := [(2, { tag := 16, valid := true, next := some 1, prev := none }),
      (1, { tag := 1, valid := true, next := none, prev := some 2 })]
    sets := [{ head := some 2, tail := some 1 }]
    size := [2]
    hits := 0, misses := 3, evictions := 1 }

/-- The state after one load of address 0 on a fresh s=1, b=0, E=1 cache. -/
def stTwoSets : CacheState :=
  { heap := [(0, { tag := 0, valid := true, next := none, prev := none }),
      (1, { tag := 2 ^ 32 - 1, valid := false, next := none, prev := none })]
    sets := [{ head := some 0, tail := some 0 }, { head := some 1, tail := none }]
    size := [1, 0]
    hits := 0, misses := 1, evictions := 0 }

/-! ### Claim theorems: concrete refutations -/

/-- Claim C1 (code bug): with s=0, E=3, b=0, after the access sequence 0,1,2,1
the single set's list is [1,2,0]; the next access, a completed hit on tag 2
(the hit counter goes from 1 to 2), leaves the list as [1,2,0]: the hit block
is not moved to the front and the other blocks therefore do not keep their
claimed relative position either.  The mid-list promotion at lines 140-144
never resets the old head's `prev` pointer, so block 2's `prev` is still NULL
when it is hit and line 136 wrongly treats it as already being the head. -/
theorem hit_not_promoted_after_stale_prev :
    (runAddrs 0 0 3 [0, 1, 2, 1] (freshCache 0)).map (fun st => (st.hits, setTags st 0))
        = some (1, [1, 2, 0])
    ∧ (runAddrs 0 0 3 [0, 1, 2, 1, 2] (freshCache 0)).map (fun st => (st.hits, setTags st 0))
        = some (2, [1, 2, 0]) := by decide

/-- Claim C2 (code bug): a state satisfying the §3 set invariants (at most E
valid blocks per set, no duplicate live tags) on which `accessData`
nevertheless reaches the error state: with s=1, E=1, b=1, the state reached
after one access to address 0 holds one valid block; accessing address 4
(same set, different tag) forces an eviction, and the eviction code reads
`LRU_tail->next` after having set `LRU_tail = LRU_tail->prev = NULL`
(lines 174-176): a null dereference. -/
theorem accessData_error_on_invariant_state :
    SetInvariants 1 stOneBlock
    ∧ runAddrs 1 1 1 [0] (freshCache 1) = some stOneBlock
    ∧ accessData 1 1 1 (freshId stOneBlock.heap) 4 stOneBlock = none := by decide

/-- Claim C3 (code bug): Scenario 2 of the spec (s=0, E=1, b=0, accesses to 0
then 16) expects (hits, misses, evictions) = (0, 2, 1); the code instead
crashes on the second access: with a single line in the set, `LRU_tail->prev`
is NULL, and line 176 then writes through the null `LRU_tail`.  At the crash
point only the first miss has been counted. -/
theorem scenario2_crashes :
    runAddrs 0 0 1 [0, 16] (freshCache 0) = none
    ∧ observe (runAddrs 0 0 1 [0] (freshCache 0)) = some (0, 1, 0) := by decide

/-- Claim C4 counterexample: with s=1, E=1, b=1, the addresses 0 and 2^34 have
different full-width tags (0 versus 2^34 >> 2 = 2^32), yet the second access
hits the line installed by the first — `int tag` at line 121 truncates both
tags to the same 32-bit pattern 0, so the two addresses are matched to the
same cache line. -/
theorem full_width_tag_refuted :
    (0 : Nat) >>> (1 + 1) ≠ (2 ^ 34 : Nat) >>> (1 + 1)
    ∧ observe (runAddrs 1 1 1 [0, 2 ^ 34] (freshCache 1)) = some (1, 1, 0) := by decide

/-- Claim C4 (amended): `accessData` decodes
`set_index = (addr >> b) & ((1<<s) - 1)`, which equals `(addr >> b) mod 2^s`,
and uses as lookup key the tag `addr >> (s+b)` truncated to the 32 bits of the
`int` it is stored in: two addresses receive the same tag key exactly when
their shifted tags agree modulo 2^32, so tags that differ only in bits at
position 32 and above of the shifted value are identified rather than kept
distinct. -/
theorem tag_truncated_to_int_width (s b a a2 : Nat) :
    setIndexOf s b a = ((a % 2 ^ 64) >>> b) % 2 ^ s
    ∧ (tagOf s b a = tagOf s b a2 ↔
        ((a % 2 ^ 64) >>> (s + b)) % 2 ^ 32 = ((a2 % 2 ^ 64) >>> (s + b)) % 2 ^ 32) := by
  refine ⟨?_, Iff.rfl⟩
  unfold setIndexOf
  rw [Nat.one_shiftLeft, Nat.and_pow_two_sub_one_eq_mod]

/-- Claim C5 (code bug): a completed eviction that removes a block which is not
the least recently used occupant.  With s=0, E=4, b=0 and the access sequence
0,1,2,3,2,4,5,3,2 the set holds tags [2,5,4,3] (list order, MRU first).  The
least recently accessed occupant is tag 4, but the next access (tag 6, a miss
on the full set) completes and evicts tag 3 instead: the earlier hit on 3 was
never promoted because the mid-list promotion (lines 140-144) had left its
`prev` pointer stale, so 3 stayed at the back of the list. -/
theorem eviction_not_lru :
    (runAddrs 0 0 4 [0, 1, 2, 3, 2, 4, 5, 3, 2] (freshCache 0)).map (fun st => setTags st 0)
        = some [2, 5, 4, 3]
    ∧ (runAddrs 0 0 4 [0, 1, 2, 3, 2, 4, 5, 3, 2, 6] (freshCache 0)).map
          (fun st => (st.hits, st.misses, st.evictions, setTags st 0))
        = some (3, 7, 3, [6, 2, 5, 4])
    ∧ leastRecentlyUsedTag [0, 1, 2, 3, 2, 4, 5, 3, 2] [2, 5, 4, 3] = some 4 := by decide

/-- Claim C8 counterexample: with s=0, E=1, b=0, starting from the reachable
state after a load of address 0, a Modify record on address 16 does not yield
a pair of outcomes at all: its first access crashes in the eviction code
(null `LRU_tail->prev`, lines 174-176), so the second access never runs and
no (·, Hit) pair is produced. -/
theorem modify_can_crash :
    observe (replayTrace 0 0 1 [.load 0] (freshCache 0)) = some (0, 1, 0)
    ∧ replayTrace 0 0 1 [.load 0, .modify 16] (freshCache 0) = none := by decide

/-! ### Counter bookkeeping (claim C7) -/

/-- The eviction step changes the eviction counter by zero (set not full) or
one (a block was deleted). -/
theorem evictIfFull_evictions {E sz ev : Nat} {h : Heap} {tp : Option Nat}
    {h2 : Heap} {tl2 : Option Nat} {sz2 ev2 : Nat}
    (hE : evictIfFull E h tp sz ev = some (h2, tl2, sz2, ev2)) :
    ev2 = ev ∨ ev2 = ev + 1 := by
  simp only [evictIfFull] at hE
  repeat' split at hE
  all_goals try (injection hE; done)
  all_goals (injection hE with q; simp_all)

/-- Each completed `accessData` call increments exactly one of the hit and miss
counters, and increments the eviction counter only if it counted a miss. -/
theorem accessData_counter_step {s b E f a : Nat} {st st2 : CacheState}
    (h : accessData s b E f a st = some st2) :
    (st2.hits = st.hits + 1 ∧ st2.misses = st.misses ∧ st2.evictions = st.evictions)
    ∨ (st2.hits = st.hits ∧ st2.misses = st.misses + 1 ∧
        (st2.evictions = st.evictions ∨ st2.evictions = st.evictions + 1)) := by
  simp only [accessData] at h
  repeat' split at h
  all_goals try (injection h; done)
  all_goals (injection h with h2; subst h2; simp)
  exact evictIfFull_evictions (by assumption)

/-- Counter bookkeeping over a completed run: hits + misses grow by exactly the
number of accesses, and evictions grow at most as much as misses. -/
theorem runAddrsA_counters {s b E : Nat} {g : CacheState → Nat} :
    ∀ (l : List Nat) (st st2 : CacheState), runAddrsA s b E g l st = some st2 →
      st2.hits + st2.misses = st.hits + st.misses + l.length
      ∧ st2.evictions + st.misses ≤ st.evictions + st2.misses
  | [], st, st2, h => by
      simp only [runAddrsA] at h
      injection h with h
      subst h; simp
  | a :: rest, st, st2, h => by
      simp only [runAddrsA] at h
      split at h
      · exact absurd h (by simp)
      · rename_i stm hm
        have h2 := runAddrsA_counters rest stm st2 h
        rcases accessData_counter_step hm with ⟨e1, e2, e3⟩ | ⟨e1, e2, e3 | e3⟩ <;>
          (simp only [List.length_cons]; omega)

/-- Claim C7: counter conservation.  After successfully replaying any finite
record sequence against the freshly constructed cache, `hit_count + miss_count`
equals the total number of cache accesses performed (1 per Load/Store record, 2
per Modify, 0 per Instruction) and `eviction_count ≤ miss_count`; moreover each
single completed access increments exactly one of hit_count and miss_count. -/
theorem counter_conservation :
    (∀ (s b E : Nat) (recs : List TraceRec) (st2 : CacheState),
        replayTrace s b E recs (freshCache s) = some st2 →
          st2.hits + st2.misses = (recs.map accessCount).sum
          ∧ st2.evictions ≤ st2.misses)
    ∧ (∀ (s b E f a : Nat) (st1 st2 : CacheState),
        accessData s b E f a st1 = some st2 →
          (st2.hits = st1.hits + 1 ∧ st2.misses = st1.misses)
          ∨ (st2.hits = st1.hits ∧ st2.misses = st1.misses + 1)) := by
  constructor
  · intro s b E recs st2 h
    simp only [replayTrace, replayTraceA] at h
    have hc := runAddrsA_counters (recs.map recAddrs).flatten (freshCache s) st2 h
    have hlen : ((recs.map recAddrs).flatten).length = (recs.map accessCount).sum := by
      rw [List.length_flatten, List.map_map]
      rfl
    have hz : (freshCache s).hits = 0 ∧ (freshCache s).misses = 0
        ∧ (freshCache s).evictions = 0 := by simp [freshCache]
    omega
  · intro s b E f a st1 st2 h
    rcases accessData_counter_step h with ⟨e1, e2, e3⟩ | ⟨e1, e2, e3⟩
    · exact Or.inl ⟨e1, e2⟩
    · exact Or.inr ⟨e1, e2⟩

/-- Witness for `counter_conservation` at concrete inputs: the trace Load 0,
Modify 4, Instruction 8 on a fresh s=0, b=0, E=2 cache, and one hit access on
the one-block state. -/
theorem counter_conservation_witness :
    (stLoadModify.hits + stLoadModify.misses
        = ([TraceRec.load 0, TraceRec.modify 4, TraceRec.instr 8].map accessCount).sum
      ∧ stLoadModify.evictions ≤ stLoadModify.misses)
    ∧ ((stOneBlockHit.hits = stOneBlock.hits + 1 ∧ stOneBlockHit.misses = stOneBlock.misses)
      ∨ (stOneBlockHit.hits = stOneBlock.hits ∧ stOneBlockHit.misses = stOneBlock.misses + 1)) :=
  ⟨counter_conservation.1 0 0 2 [TraceRec.load 0, TraceRec.modify 4, TraceRec.instr 8]
      stLoadModify (by decide),
   counter_conservation.2 1 1 1 2 0 stOneBlock stOneBlockHit (by decide)⟩

/-! ### Heap update lemmas -/

/-- Reading after a field update: the updated cell shows the update, others are
unchanged. -/
theorem hget_hmod (h : Heap) (a c : Nat) (f : Node → Node) :
    hget (hmod h a f) c = if c = a then (hget h c).map f else hget h c := by
  induction h with
  | nil => simp [hget, hmod]
  | cons p t ih =>
    obtain ⟨b2, n⟩ := p
    by_cases hab : a = b2 <;> by_cases hcb : c = b2 <;>
      simp_all [hget, hmod] <;> split_ifs <;> simp_all

theorem length_hmod (h : Heap) (a : Nat) (f : Node → Node) :
    (hmod h a f).length = h.length := by
  induction h with
  | nil => rfl
  | cons p t ih =>
    obtain ⟨b2, n⟩ := p
    by_cases hab : a = b2 <;> simp_all [hmod]

theorem hmodM_some {h h2 : Heap} {a : Nat} {f : Node → Node}
    (hE : hmodM h a f = some h2) : h2 = hmod h a f := by
  simp only [hmodM] at hE
  split at hE
  · exact absurd hE (by simp)
  · injection hE with hE; exact hE.symm

/-! ### Claim C8: the second access of a Modify record -/

/-- Claim C8 (amended): whenever the first of the two `accessData` calls of a
Modify record completes (does not crash), the second call on the same address
always completes as a Hit: it increments the hit counter by one and leaves the
miss and eviction counters unchanged, for any allocator choices `f`, `f2`. -/
theorem modify_second_access_hits (s b E f f2 a : Nat) (st st1 : CacheState)
    (h : accessData s b E f a st = some st1) :
    (accessData s b E f2 a st1).map (fun st2 => (st2.hits, st2.misses, st2.evictions))
      = some (st1.hits + 1, st1.misses, st1.evictions) := by
  simp only [accessData] at h
  split at h; · exact (by injection h)
  rename_i sh hsets
  split at h; · exact (by injection h)
  rename_i a0 hhead
  split at h; · exact (by injection h)
  rename_i curr hfind
  split at h; · exact (by injection h)
  rename_i n hgetc
  split at h; · exact (by injection h)
  rename_i sz hsize
  have hlt : setIndexOf s b a < st.sets.length := (List.getElem?_eq_some.mp hsets).1
  split at h
  · -- hit branch
    rename_i hhit
    split at h
    · -- 1 < sz
      rename_i hsz1
      split at h
      · -- prev = none: no structural change
        rename_i hprev
        injection h with h1; subst h1
        simp [accessData, hsets, hhead, hfind, hgetc, hsize, hhit.1, hhit.2, hsz1, hprev]

      · -- prev = some p
        rename_i p hprev
        split at h
        · -- middle of the list
          rename_i nxw hnext
          split at h; · exact (by injection h)
          rename_i h1w hm1
          split at h; · exact (by injection h)
          rename_i n1 hre
          split at h; · exact (by injection h)
          rename_i nx hnx
          split at h; · exact (by injection h)
          rename_i h2w hm2
          split at h; · exact (by injection h)
          rename_i h3w hm3
          split at h; · exact (by injection h)
          rename_i h4w hm4
          injection h with h1; subst h1
          obtain rfl := hmodM_some hm1
          obtain rfl := hmodM_some hm2
          obtain rfl := hmodM_some hm3
          obtain rfl := hmodM_some hm4
          have ht : n1.tag = n.tag ∧ n1.valid = n.valid := by
            rw [hget_hmod] at hre
            split_ifs at hre <;>
              (rw [hgetc] at hre; injection hre with e; subst e; exact ⟨rfl, rfl⟩)
          have e2 : hget (hmod (hmod st.heap p fun m => { m with next := n.next }) nx
              fun m => { m with prev := n1.prev }) curr = some n1 := by
            rw [hget_hmod]
            split_ifs with hcnx
            · rw [hre]; rfl
            · exact hre
          have e3 : hget (hmod (hmod (hmod st.heap p fun m => { m with next := n.next }) nx
              fun m => { m with prev := n1.prev }) curr fun m => { m with next := some a0 })
              curr = some { n1 with next := some a0 } := by
            rw [hget_hmod, e2]; simp
          have e4 : hget (hmod (hmod (hmod (hmod st.heap p fun m => { m with next := n.next })
              nx fun m => { m with prev := n1.prev }) curr fun m => { m with next := some a0 })
              curr fun m => { m with prev := none }) curr
              = some { n1 with next := some a0, prev := none } := by
            rw [hget_hmod, e3]; simp
          simp [accessData, List.getElem?_set_self hlt, e4, findCurr, length_hmod,
                hsize, ht.1, ht.2, hhit.1, hhit.2, hsz1]
        · -- tail of the list
          split at h; · exact (by injection h)
          rename_i h1w hm1
          split at h; · exact (by injection h)
          rename_i n1 hre
          split at h; · exact (by injection h)
          rename_i h2w hm2
          split at h; · exact (by injection h)
          rename_i h3w hm3
          split at h; · exact (by injection h)
          rename_i h4w hm4
          injection h with h1; subst h1
          obtain rfl := hmodM_some hm1
          obtain rfl := hmodM_some hm2
          obtain rfl := hmodM_some hm3
          obtain rfl := hmodM_some hm4
          have ht : n1.tag = n.tag ∧ n1.valid = n.valid := by
            rw [hget_hmod] at hre
            split_ifs at hre <;>
              (rw [hgetc] at hre; injection hre with e; subst e; exact ⟨rfl, rfl⟩)
          have e2 : hget (hmod (hmod st.heap p fun m => { m with next := none }) curr
              fun m => { m with prev := none }) curr = some { n1 with prev := none } := by
            rw [hget_hmod]; simp [hre]
          by_cases hac : curr = a0
          · subst hac
            have e3 : hget (hmod (hmod (hmod st.heap p fun m => { m with next := none }) curr
                fun m => { m with prev := none }) curr fun m => { m with prev := some curr })
                curr = some { n1 with prev := some curr } := by
              rw [hget_hmod, e2]; simp
            have e4 : hget (hmod (hmod (hmod (hmod st.heap p
                fun m => { m with next := none }) curr fun m => { m with prev := none }) curr
                fun m => { m with prev := some curr }) curr fun m => { m with next := some curr })
                curr = some { n1 with prev := some curr, next := some curr } := by
              rw [hget_hmod, e3]; simp
            simp [accessData, List.getElem?_set_self hlt, hmodM, hget_hmod, e4, findCurr,
                  length_hmod, hsize, ht.1, ht.2, hhit.1, hhit.2, hsz1]
          · have e3 : hget (hmod (hmod (hmod st.heap p fun m => { m with next := none }) curr
                fun m => { m with prev := none }) a0 fun m => { m with prev := some curr })
                curr = some { n1 with prev := none } := by
              rw [hget_hmod, if_neg hac]; exact e2
            have e4 : hget (hmod (hmod (hmod (hmod st.heap p
                fun m => { m with next := none }) curr fun m => { m with prev := none }) a0
                fun m => { m with prev := some curr }) curr fun m => { m with next := some a0 })
                curr = some { n1 with prev := none, next := some a0 } := by
              rw [hget_hmod, e3]; simp
            simp [accessData, List.getElem?_set_self hlt, e4, findCurr, length_hmod,
                  hsize, ht.1, ht.2, hhit.1, hhit.2, hsz1]
    · -- sz ≤ 1: no structural change
      rename_i hsz1
      injection h with h1; subst h1
      simp [accessData, hsets, hhead, hfind, hgetc, hsize, hhit.1, hhit.2, hsz1]
  · -- miss branch
    rename_i hmiss
    split at h
    · -- sz = 0: reuse the sentinel
      rename_i hsz0
      subst hsz0
      split at h; · exact (by injection h)
      rename_i h1w hm1
      injection h with h1; subst h1
      obtain rfl := hmodM_some hm1
      have hlt2 : setIndexOf s b a < st.size.length := (List.getElem?_eq_some.mp hsize).1
      have e1 : hget (hmod st.heap curr
          fun m => { m with tag := tagOf s b a, valid := true }) curr
          = some { n with tag := tagOf s b a, valid := true } := by
        rw [hget_hmod]; simp [hgetc]
      rcases hnn : n.next with _ | nxv <;>
        simp [accessData, List.getElem?_set_self hlt, List.getElem?_set_self hlt2, e1,
              findCurr, length_hmod, hnn]
    · -- sz ≠ 0: optional eviction, then insert at the head
      rename_i hsz0
      split at h; · exact (by injection h)
      rename_i h2w tl2 sz2 ev2 hevict
      split at h; · exact (by injection h)
      rename_i hfresh
      split at h; · exact (by injection h)
      rename_i h3w hm3
      injection h with h1; subst h1
      obtain rfl := hmodM_some hm3
      have hlt2 : setIndexOf s b a < st.size.length := (List.getElem?_eq_some.mp hsize).1
      have e1 : hget ((f, { tag := tagOf s b a, valid := true, next := some a0, prev := none })
          :: hmod h2w a0 fun m => { m with prev := some f }) f
          = some { tag := tagOf s b a, valid := true, next := some a0, prev := none } := by
        simp [hget]
      by_cases h12 : 1 < sz2 + 1 <;>
        simp [accessData, List.getElem?_set_self hlt, List.getElem?_set_self hlt2, e1,
              findCurr, h12]

/-- Witness for `modify_second_access_hits`: a Modify of address 4 after a miss
installed tag 4 (s=0, b=0, E=2): the second access is a hit. -/
theorem modify_second_access_hits_witness :
    (accessData 0 0 2 7 4 stFill).map (fun st2 => (st2.hits, st2.misses, st2.evictions))
      = some (stFill.hits + 1, stFill.misses, stFill.evictions) :=
  modify_second_access_hits 0 0 2 1 7 4 (freshCache 0) stFill (by decide)

/-! ### Chain toolkit -/

theorem mem_keys_of_hget {h : Heap} {a : Nat} {n : Node} (hg : hget h a = some n) :
    a ∈ keys h := by
  induction h with
  | nil => simp [hget] at hg
  | cons p t ih =>
    obtain ⟨b2, m⟩ := p
    simp only [hget] at hg
    split_ifs at hg with hab
    · subst hab; simp [keys]
    · have := ih hg
      simp [keys] at this ⊢
      exact Or.inr this

theorem hget_eq_none {h : Heap} {a : Nat} (ha : a ∉ keys h) : hget h a = none := by
  induction h with
  | nil => rfl
  | cons p t ih =>
    obtain ⟨b2, m⟩ := p
    simp only [keys, List.map_cons, List.mem_cons] at ha
    push_neg at ha
    simp only [hget, if_neg ha.1]
    exact ih (by simpa [keys] using ha.2)

theorem keys_hmod (h : Heap) (a : Nat) (f : Node → Node) :
    keys (hmod h a f) = keys h := by
  induction h with
  | nil => rfl
  | cons p t ih =>
    obtain ⟨b2, m⟩ := p
    by_cases hab : a = b2 <;> simp_all [hmod, keys]

theorem keys_hfree (h : Heap) (a : Nat) :
    keys (hfree h a) = (keys h).erase a := by
  induction h with
  | nil => rfl
  | cons p t ih =>
    obtain ⟨b2, m⟩ := p
    by_cases hab : a = b2
    · subst hab; simp [hfree, keys, List.erase_cons]
    · have hb : (b2 == a) = false := beq_eq_false_iff_ne.mpr (fun hh => hab hh.symm)
      simp only [hfree, if_neg hab, keys, List.map_cons, List.erase_cons, hb,
        Bool.false_eq_true, if_false]
      simpa [keys] using ih

theorem hget_hfree_ne {h : Heap} {a c : Nat} (hne : c ≠ a) :
    hget (hfree h a) c = hget h c := by
  induction h with
  | nil => rfl
  | cons p t ih =>
    obtain ⟨b2, m⟩ := p
    by_cases hab : a = b2
    · subst hab; simp [hfree, hget, if_neg hne]
    · by_cases hcb : c = b2 <;> simp_all [hfree, hget]

theorem hget_hfree_self {h : Heap} {a : Nat} (nd : (keys h).Nodup) :
    hget (hfree h a) a = none := by
  apply hget_eq_none
  rw [keys_hfree]
  exact (nd.mem_erase_iff ..).mp.mt (by simp)

theorem endPtr_cons (pa : Option Nat) (a : Nat) (n : Node) (l : List (Nat × Node)) :
    endPtr pa ((a, n) :: l) = endPtr (some a) l := by
  cases l with
  | nil => simp [endPtr]
  | cons y t =>
    simp only [endPtr, List.getLast?_cons_cons]
    cases hgl : (y :: t).getLast? with
    | none => simp [List.getLast?_eq_none_iff] at hgl
    | some z => simp [hgl]

theorem chainSeg_hget {h : Heap} :
    ∀ {c : List (Nat × Node)} {pa aft : Option Nat}, ChainSeg h pa aft c →
      ∀ p ∈ c, hget h p.1 = some p.2
  | [], _, _, _, p, hp => by simp at hp
  | (a, n) :: rest, pa, aft, hc, p, hp => by
    rcases List.mem_cons.mp hp with rfl | hp2
    · exact hc.1
    · exact chainSeg_hget hc.2.2.2 p hp2

theorem chainKeys_subset_keys {h : Heap} {c : List (Nat × Node)} {pa aft : Option Nat}
    (hc : ChainSeg h pa aft c) : ∀ a ∈ chainKeys c, a ∈ keys h := by
  intro a ha
  simp only [chainKeys, List.mem_map] at ha
  obtain ⟨p, hp, rfl⟩ := ha
  exact mem_keys_of_hget (chainSeg_hget hc p hp)

theorem chainSeg_frame {h h2 : Heap} :
    ∀ {c : List (Nat × Node)} {pa aft : Option Nat},
      (∀ p ∈ c, hget h2 p.1 = hget h p.1) → ChainSeg h pa aft c → ChainSeg h2 pa aft c
  | [], _, _, _, _ => trivial
  | (a, n) :: rest, pa, aft, hsame, hc => by
    refine ⟨?_, hc.2.1, hc.2.2.1, ?_⟩
    · rw [hsame (a, n) (by simp)]; exact hc.1
    · exact chainSeg_frame (fun p hp => hsame p (List.mem_cons_of_mem _ hp)) hc.2.2.2

theorem chainSeg_split {h : Heap} :
    ∀ {j : List (Nat × Node)} {pa aft : Option Nat} {x : Nat × Node} {k : List (Nat × Node)},
      ChainSeg h pa aft (j ++ x :: k) →
        ChainSeg h pa (some x.1) j
        ∧ hget h x.1 = some x.2
        ∧ (x.2.prev = none ∨ x.2.prev = endPtr pa j)
        ∧ (match k with
           | [] => x.2.next = aft
           | (a2, _) :: _ => x.2.next = some a2)
        ∧ ChainSeg h (some x.1) aft k
  | [], pa, aft, ⟨xa, xn⟩, k, hc => by
    exact ⟨trivial, hc.1, by simpa [endPtr] using hc.2.1, hc.2.2.1, hc.2.2.2⟩
  | (a, n) :: j, pa, aft, x, k, hc => by
    have ih := chainSeg_split (j := j) (x := x) (k := k) hc.2.2.2
    refine ⟨⟨hc.1, hc.2.1, ?_, ih.1⟩, ih.2.1, ?_, ih.2.2.2.1, ih.2.2.2.2⟩
    · have := hc.2.2.1
      cases j <;> simpa using this
    · rw [endPtr_cons]
      exact ih.2.2.1

theorem chainSeg_join {h : Heap} :
    ∀ {j : List (Nat × Node)} {pa aft : Option Nat} {x : Nat × Node} {k : List (Nat × Node)},
      ChainSeg h pa (some x.1) j →
      hget h x.1 = some x.2 →
      (x.2.prev = none ∨ x.2.prev = endPtr pa j) →
      (match k with
       | [] => x.2.next = aft
       | (a2, _) :: _ => x.2.next = some a2) →
      ChainSeg h (some x.1) aft k →
      ChainSeg h pa aft (j ++ x :: k)
  | [], pa, aft, ⟨xa, xn⟩, k, _, hx, hprev, hnext, h2 => by
    exact ⟨hx, by simpa [endPtr] using hprev, hnext, h2⟩
  | (a, n) :: j, pa, aft, x, k, h1, hx, hprev, hnext, h2 => by
    refine ⟨h1.1, h1.2.1, ?_, ?_⟩
    · have := h1.2.2.1
      cases j <;> simpa using this
    · exact chainSeg_join h1.2.2.2 hx (by rwa [endPtr_cons] at hprev) hnext h2

/-- What the search loop returns on a well-formed list: the first element whose
tag matches, or the last element when none matches. -/
theorem findCurr_chain {h : Heap} {tag : Nat} :
    ∀ {u : List (Nat × Node)} {pa : Option Nat} {w a : Nat} {n : Node},
      ChainSeg h pa none ((a, n) :: u) →
      ((a, n) :: u).length ≤ w →
        ∃ l1 x l2, (a, n) :: u = l1 ++ x :: l2
          ∧ findCurr h tag w a = some x.1
          ∧ (∀ y ∈ l1, y.2.tag ≠ tag)
          ∧ (x.2.tag = tag ∨ (x.2.tag ≠ tag ∧ l2 = []))
  | u, pa, 0, a, n, _, hlen => by simp at hlen
  | [], pa, w + 1, a, n, hc, _ => by
    refine ⟨[], (a, n), [], by simp, ?_, by simp, ?_⟩
    · simp only [findCurr, hc.1]
      have hnx : n.next = none := hc.2.2.1
      simp [hnx]
    · by_cases ht : n.tag = tag
      · exact Or.inl ht
      · exact Or.inr ⟨ht, rfl⟩
  | (a2, n2) :: t, pa, w + 1, a, n, hc, hlen => by
    have hnx : n.next = some a2 := hc.2.2.1
    by_cases ht : n.tag = tag
    · exact ⟨[], (a, n), (a2, n2) :: t, by simp, by simp [findCurr, hc.1, hnx, ht], by simp,
        Or.inl ht⟩
    · obtain ⟨l1, x, l2, heq, hfind, hl1, hx⟩ :=
        findCurr_chain (u := t) (w := w) (a := a2) (n := n2) hc.2.2.2
          (by simpa using Nat.le_of_succ_le_succ hlen)
      refine ⟨(a, n) :: l1, x, l2, by simp [heq], ?_, ?_, hx⟩
      · simp [findCurr, hc.1, hnx, ht, hfind]
      · intro y hy
        rcases List.mem_cons.mp hy with rfl | hy2
        · exact ht
        · exact hl1 y hy2

theorem chaseChain_none (h : Heap) : ∀ fuel, chaseChain h fuel none = []
  | 0 => rfl
  | _ + 1 => rfl

/-- The fuel-bounded observer reads off exactly a well-formed list. -/
theorem chaseChain_eq {h : Heap} :
    ∀ {c : List (Nat × Node)} {pa : Option Nat} {w : Nat},
      ChainSeg h pa none c → c.length ≤ w →
        chaseChain h w ((c.head?).map Prod.fst) = c
  | [], _, w, _, _ => chaseChain_none h w
  | (a, n) :: rest, pa, 0, _, hlen => by simp at hlen
  | (a, n) :: rest, pa, w + 1, hc, hlen => by
    simp only [List.head?_cons, Option.map_some, chaseChain, hc.1]
    congr 1
    cases rest with
    | nil =>
      have hnx : n.next = none := hc.2.2.1
      rw [hnx]
      exact chaseChain_none h w
    | cons y t =>
      obtain ⟨a2, n2⟩ := y
      have hnx : n.next = some a2 := hc.2.2.1
      rw [hnx]
      have := chaseChain_eq (c := (a2, n2) :: t) (w := w) hc.2.2.2
        (by simpa using Nat.le_of_succ_le_succ hlen)
      simpa using this

theorem chain_length_le {h : Heap} {c : List (Nat × Node)} {pa aft : Option Nat}
    (hc : ChainSeg h pa aft c) (nd : (chainKeys c).Nodup) : c.length ≤ h.length := by
  have hsub : chainKeys c ⊆ keys h := fun a ha => chainKeys_subset_keys hc a ha
  have := (List.subperm_of_subset nd hsub).length_le
  simpa [chainKeys, keys] using this

theorem hget_of_mem_nodup {h : Heap} {a : Nat} {n : Node}
    (nd : (keys h).Nodup) (hm : (a, n) ∈ h) : hget h a = some n := by
  induction h with
  | nil => simp at hm
  | cons p t ih =>
    obtain ⟨b2, m⟩ := p
    have nd2 : b2 ∉ keys t ∧ (keys t).Nodup := by
      simpa [keys, List.nodup_cons] using nd
    rcases List.mem_cons.mp hm with heq | hm2
    · injection heq with e1 e2
      subst e1; subst e2
      simp [hget]
    · have hne : a ≠ b2 := by
        rintro rfl
        exact nd2.1 (by simpa [keys] using List.mem_map_of_mem Prod.fst hm2)
      simp only [hget, if_neg hne]
      exact ih nd2.2 hm2

theorem SetOk_frame {h h2 : Heap} {E : Nat} {sh : SetHT} {sz : Nat}
    {c : List (Nat × Node)} (hsame : ∀ p ∈ c, hget h2 p.1 = hget h p.1)
    (hs : SetOk h E sh sz c) : SetOk h2 E sh sz c :=
  ⟨chainSeg_frame hsame hs.1, hs.2.1, hs.2.2.1, hs.2.2.2⟩

/-- The keys of the fresh heap are the set indices. -/
theorem freshCache_keys (s : Nat) : keys (freshCache s).heap = List.range (2 ^ s) := by
  simp only [freshCache, keys, List.map_map]
  exact List.map_id ..▸ (by rfl)

/-- The freshly constructed cache satisfies the invariant. -/
theorem Inv_freshCache (s E : Nat) : Inv s E (freshCache s) := by
  refine ⟨(List.range (2 ^ s)).map (fun i => [(i, sentinel)]), by simp, by simp [freshCache],
    by simp [freshCache], ?_, ?_, ?_, ?_⟩
  · rw [freshCache_keys]
    exact List.nodup_range ..
  · intro i sh szv c hsh hszv hc
    have hiv : i < 2 ^ s ∧ szv = 0 := by
      simp only [freshCache, List.getElem?_replicate] at hszv
      split at hszv
      · exact ⟨by assumption, by injection hszv with e; exact e.symm⟩
      · exact absurd hszv (by simp)
    obtain ⟨hi, rfl⟩ := hiv
    simp only [freshCache, List.getElem?_map, List.getElem?_range hi, Option.map_some] at hsh hc
    injection hsh with hsh
    injection hc with hc
    subst hsh; subst hc
    have hg : hget (freshCache s).heap i = some sentinel := by
      apply hget_of_mem_nodup
      · rw [freshCache_keys]; exact List.nodup_range ..
      · exact List.mem_map_of_mem _ (List.mem_range.mpr hi)
    exact ⟨⟨hg, Or.inl rfl, rfl, trivial⟩, by simp [chainKeys], ⟨(i, sentinel), [], rfl, rfl⟩,
      by simp [sentinel]⟩
  · intro i j ci cj hij hci hcj k hk
    simp only [List.getElem?_map] at hci hcj
    rcases hri : (List.range (2 ^ s))[i]? with _ | vi
    · rw [hri] at hci; exact absurd hci (by simp)
    rcases hrj : (List.range (2 ^ s))[j]? with _ | vj
    · rw [hrj] at hcj; exact absurd hcj (by simp)
    rw [hri] at hci; rw [hrj] at hcj
    obtain ⟨hilt, hie⟩ := List.getElem?_eq_some.mp hri
    obtain ⟨hjlt, hje⟩ := List.getElem?_eq_some.mp hrj
    rw [List.getElem_range] at hie hje
    injection hci with hci
    injection hcj with hcj
    subst hci; subst hcj; subst hie; subst hje
    simp only [chainKeys, List.map_cons, List.map_nil, List.mem_singleton] at hk ⊢
    subst hk
    simpa using hij
  · intro k hk
    rw [freshCache_keys] at hk
    refine ⟨k, [(k, sentinel)], ?_, by simp [chainKeys]⟩
    rw [List.getElem?_map, List.getElem?_range (List.mem_range.mp hk)]
    rfl

theorem getElem?_some_lt {α : Type} {l : List α} {i : Nat} {x : α}
    (h : l[i]? = some x) : i < l.length := by
  obtain ⟨h1, -⟩ := List.getElem?_eq_some.mp h
  exact h1

/-- Rebuild the invariant after an update that touched only set `si`: the heap
lost the pointers `rem` and gained the fresh pointers `nw`, blocks outside set
`si`'s old chain `c` are unchanged, and set `si` is well formed again with
chain `c2`.  Also yields the frame facts for every other set. -/
theorem Inv_rebuild {s E : Nat} {st st2 : CacheState} {si : Nat}
    {cs : List (List (Nat × Node))} {c d : List (Nat × Node)}
    {sh2 : SetHT} {sz2 : Nat} {u v : List Nat}
    (hcs : cs.length = 2 ^ s)
    (hsetsL : st.sets.length = 2 ^ s)
    (hsizeL : st.size.length = 2 ^ s)
    (hSets : ∀ (i : Nat) (sh : SetHT) (szv : Nat) (ci : List (Nat × Node)),
        st.sets[i]? = some sh → st.size[i]? = some szv → cs[i]? = some ci →
        SetOk st.heap E sh szv ci)
    (hdisj : ∀ (i j : Nat) (ci cj : List (Nat × Node)), i ≠ j → cs[i]? = some ci →
        cs[j]? = some cj → ∀ k ∈ chainKeys ci, k ∉ chainKeys cj)
    (hcover : ∀ k ∈ keys st.heap, ∃ (i : Nat) (ci : List (Nat × Node)),
        cs[i]? = some ci ∧ k ∈ chainKeys ci)
    (hsi : si < 2 ^ s)
    (hcsi : cs[si]? = some c)
    (hsetsL2 : st2.sets.length = 2 ^ s)
    (hsizeL2 : st2.size.length = 2 ^ s)
    (hsets_si : st2.sets[si]? = some sh2)
    (hsize_si : st2.size[si]? = some sz2)
    (hsets_fr : ∀ j, j ≠ si → st2.sets[j]? = st.sets[j]?)
    (hsize_fr : ∀ j, j ≠ si → st2.size[j]? = st.size[j]?)
    (hkeys_iff : ∀ k, k ∈ keys st2.heap ↔ ((k ∈ keys st.heap ∧ k ∉ u) ∨ k ∈ v))
    (hnd2 : (keys st2.heap).Nodup)
    (hrem_sub : ∀ k ∈ u, k ∈ chainKeys c)
    (hnw_fresh : ∀ k ∈ v, k ∉ keys st.heap ∨ k ∈ u)
    (hnw_in : ∀ k ∈ v, k ∈ chainKeys d)
    (hc2_sub : ∀ k ∈ chainKeys d, k ∈ chainKeys c ∨ k ∈ v)
    (hkeep : ∀ k ∈ chainKeys c, k ∉ u → k ∈ chainKeys d)
    (hframe : ∀ k, k ∉ chainKeys c → k ∉ v → hget st2.heap k = hget st.heap k)
    (hSet2 : SetOk st2.heap E sh2 sz2 d) :
    Inv s E st2
    ∧ ∀ j, j ≠ si →
        st2.sets[j]? = st.sets[j]? ∧ st2.size[j]? = st.size[j]?
        ∧ setChain st2 j = setChain st j := by
  have hcsi_lt : si < cs.length := hcs ▸ hsi
  have hSetsOf : ∀ (j : Nat) (cj : List (Nat × Node)), cs[j]? = some cj →
      ∃ shj szj, st.sets[j]? = some shj ∧ st.size[j]? = some szj
        ∧ SetOk st.heap E shj szj cj := by
    intro j cj hcj
    have hjlt : j < 2 ^ s := hcs ▸ getElem?_some_lt hcj
    obtain ⟨shj, hshj⟩ : ∃ x, st.sets[j]? = some x :=
      ⟨_, List.getElem?_eq_getElem (hsetsL ▸ hjlt)⟩
    obtain ⟨szj, hszj⟩ : ∃ x, st.size[j]? = some x :=
      ⟨_, List.getElem?_eq_getElem (hsizeL ▸ hjlt)⟩
    exact ⟨shj, szj, hshj, hszj, hSets j shj szj cj hshj hszj hcj⟩
  have holdkeys : ∀ (j : Nat) (cj : List (Nat × Node)), cs[j]? = some cj →
      ∀ k ∈ chainKeys cj, k ∈ keys st.heap := by
    intro j cj hcj k hkk
    obtain ⟨shj, szj, -, -, hOk⟩ := hSetsOf j cj hcj
    exact chainKeys_subset_keys hOk.1 k hkk
  have hother : ∀ (j : Nat) (cj : List (Nat × Node)), j ≠ si → cs[j]? = some cj →
      ∀ p ∈ cj, hget st2.heap p.1 = hget st.heap p.1 := by
    intro j cj hj hcj p hp
    have hmemc : p.1 ∈ chainKeys cj := List.mem_map_of_mem _ hp
    have hnotc : p.1 ∉ chainKeys c := hdisj j si cj c hj hcj hcsi p.1 hmemc
    have hnotnw : p.1 ∉ v := fun hmem =>
      (hnw_fresh _ hmem).elim (fun hf => hf (holdkeys j cj hcj p.1 hmemc))
        (fun hr => hnotc (hrem_sub _ hr))
    exact hframe p.1 hnotc hnotnw
  refine ⟨⟨cs.set si d, by simp [hcs], hsetsL2, hsizeL2, hnd2, ?_, ?_, ?_⟩, ?_⟩
  · -- per-set well-formedness
    intro i sh szv ci h1 h2 h3
    by_cases hisi : i = si
    · subst hisi
      rw [hsets_si] at h1; injection h1 with h1; subst h1
      rw [hsize_si] at h2; injection h2 with h2; subst h2
      rw [List.getElem?_set_self hcsi_lt] at h3; injection h3 with h3; subst h3
      exact hSet2
    · rw [hsets_fr i hisi] at h1
      rw [hsize_fr i hisi] at h2
      rw [List.getElem?_set_ne (fun he => hisi he.symm)] at h3
      exact SetOk_frame (hother i ci hisi h3) (hSets i sh szv ci h1 h2 h3)
  · -- disjointness
    intro i j ci cj hij h1 h2 k hk
    by_cases hisi : i = si <;> by_cases hjsi : j = si
    · exact absurd (hisi.trans hjsi.symm) hij
    · subst hisi
      rw [List.getElem?_set_self hcsi_lt] at h1; injection h1 with h1; subst h1
      rw [List.getElem?_set_ne (fun he => hjsi he.symm)] at h2
      intro hkj
      rcases hc2_sub k hk with hkc | hknw
      · exact hdisj i j c cj hij hcsi h2 k hkc hkj
      · rcases hnw_fresh k hknw with hf | hr
        · exact hf (holdkeys j cj h2 k hkj)
        · exact hdisj i j c cj hij hcsi h2 k (hrem_sub k hr) hkj
    · subst hjsi
      rw [List.getElem?_set_self hcsi_lt] at h2; injection h2 with h2; subst h2
      rw [List.getElem?_set_ne (fun he => hisi he.symm)] at h1
      intro hkj
      rcases hc2_sub k hkj with hkc | hknw
      · exact hdisj i j ci c hij h1 hcsi k hk hkc
      · rcases hnw_fresh k hknw with hf | hr
        · exact hf (holdkeys i ci h1 k hk)
        · exact hdisj i j ci c hij h1 hcsi k hk (hrem_sub k hr)
    · rw [List.getElem?_set_ne (fun he => hisi he.symm)] at h1
      rw [List.getElem?_set_ne (fun he => hjsi he.symm)] at h2
      exact hdisj i j ci cj hij h1 h2 k hk
  · -- coverage
    intro k hk
    rcases (hkeys_iff k).mp hk with ⟨hold, hnrem⟩ | hnw2
    · obtain ⟨i, ci, hci, hkci⟩ := hcover k hold
      by_cases hisi : i = si
      · subst hisi
        rw [hcsi] at hci; injection hci with hci; subst hci
        exact ⟨i, d, List.getElem?_set_self hcsi_lt, hkeep k hkci hnrem⟩
      · exact ⟨i, ci, by
          rw [List.getElem?_set_ne (fun he => hisi he.symm)]; exact hci, hkci⟩
    · exact ⟨si, d, List.getElem?_set_self hcsi_lt, hnw_in k hnw2⟩
  · -- frame facts for the untouched sets
    intro j hj
    refine ⟨hsets_fr j hj, hsize_fr j hj, ?_⟩
    by_cases hjlt : j < 2 ^ s
    · obtain ⟨cj, hcj⟩ : ∃ x, cs[j]? = some x :=
        ⟨_, List.getElem?_eq_getElem (hcs ▸ hjlt)⟩
      obtain ⟨shj, szj, hshj, hszj, hOk⟩ := hSetsOf j cj hcj
      have hfr := hother j cj hj hcj
      obtain ⟨x, rest, rfl, hheadj⟩ := hOk.2.2.1
      have hch2 : ChainSeg st2.heap none none (x :: rest) := chainSeg_frame hfr hOk.1
      have e1 : setChain st j = x :: rest := by
        simp only [setChain, hshj, hheadj]
        have hle : (x :: rest).length ≤ st.heap.length + 1 :=
          (chain_length_le hOk.1 hOk.2.1).trans (Nat.le_succ _)
        simpa using chaseChain_eq hOk.1 hle
      have e2 : setChain st2 j = x :: rest := by
        simp only [setChain, hsets_fr j hj, hshj, hheadj]
        have hle : (x :: rest).length ≤ st2.heap.length + 1 :=
          (chain_length_le hch2 hOk.2.1).trans (Nat.le_succ _)
        simpa using chaseChain_eq hch2 hle
      rw [e1, e2]
    · have h1 : st.sets[j]? = none := List.getElem?_eq_none (by omega)
      have h2v : st2.sets[j]? = none := List.getElem?_eq_none (by omega)
      simp [setChain, h1, h2v]

/-- The hint pointer of a segment is irrelevant when the first element's `prev`
is `NULL` or matches the new hint. -/
theorem chainSeg_pa {h : Heap} {pa pa2 aft : Option Nat} :
    ∀ {c : List (Nat × Node)}, ChainSeg h pa aft c →
      (match c with
       | [] => True
       | (_, n) :: _ => n.prev = none ∨ n.prev = pa2) →
      ChainSeg h pa2 aft c
  | [], _, _ => trivial
  | (a, n) :: rest, hc, hfst => ⟨hc.1, hfst, hc.2.2.1, hc.2.2.2⟩

/-- A fully well-formed list starting at the head has its first `prev` NULL. -/
theorem chainSeg_head_prev {h : Heap} {aft : Option Nat} {a : Nat} {n : Node}
    {rest : List (Nat × Node)} (hc : ChainSeg h none aft ((a, n) :: rest)) :
    n.prev = none := by
  rcases hc.2.1 with h1 | h1 <;> exact h1

theorem getLast?_append_cons {α : Type} (x : α) (l2 : List α) :
    ∀ l1 : List α, (l1 ++ x :: l2).getLast? = (x :: l2).getLast?
  | [] => rfl
  | y :: t => by
    rw [List.cons_append, ← getLast?_append_cons x l2 t]
    cases hd : t ++ x :: l2 with
    | nil => exact absurd hd (by simp)
    | cons z zs => rw [List.getLast?_cons_cons]

theorem getLast?_key_cons (a : Nat) (n n2 : Node) (t : List (Nat × Node)) :
    (((a, n2) :: t).getLast?).map Prod.fst = (((a, n) :: t).getLast?).map Prod.fst := by
  cases t with
  | nil => rfl
  | cons y t2 => rw [List.getLast?_cons_cons, List.getLast?_cons_cons]

set_option maxHeartbeats 12800000 in
theorem accessData_step {s b E f a : Nat} {st st2 : CacheState} (hE : 1 ≤ E)
    (hInv : Inv s E st) (h : accessData s b E f a st = some st2) :
    Inv s E st2
    ∧ ∀ j, j ≠ setIndexOf s b a →
        st2.sets[j]? = st.sets[j]? ∧ st2.size[j]? = st.size[j]?
        ∧ setChain st2 j = setChain st j := by
  obtain ⟨cs, hcs, hsetsL, hsizeL, hnd, hSets, hdisj, hcover⟩ := hInv
  simp only [accessData] at h
  split at h; · exact (by injection h)
  rename_i sh hsets
  split at h; · exact (by injection h)
  rename_i a0 hhead
  split at h; · exact (by injection h)
  rename_i curr hfind
  split at h; · exact (by injection h)
  rename_i n hgetc
  split at h; · exact (by injection h)
  rename_i sz hsize
  have hsi : setIndexOf s b a < 2 ^ s := hsetsL ▸ getElem?_some_lt hsets
  obtain ⟨c, hcsi⟩ : ∃ x, cs[setIndexOf s b a]? = some x :=
    ⟨_, List.getElem?_eq_getElem (hcs ▸ hsi)⟩
  have hOk : SetOk st.heap E sh sz c := hSets _ _ _ _ hsets hsize hcsi
  obtain ⟨x0, rest0, hceq, hheadx⟩ := hOk.2.2.1
  rw [hhead] at hheadx
  injection hheadx with hheadx
  obtain ⟨a0c, n0⟩ := x0
  subst hheadx
  have hfuel : c.length ≤ st.heap.length + 1 :=
    (chain_length_le hOk.1 hOk.2.1).trans (Nat.le_succ _)
  obtain ⟨l1, x, l2, hdec, hfind2, hl1tags, hxtag⟩ :=
    findCurr_chain (hceq ▸ hOk.1) (hceq ▸ hfuel)
  rw [← hceq] at hdec
  rw [hfind2] at hfind
  injection hfind with hfind
  subst hfind
  have hgx : hget st.heap x.1 = some x.2 :=
    chainSeg_hget hOk.1 x (by rw [hdec]; exact List.mem_append_right _ (by simp))
  rw [hgx] at hgetc
  injection hgetc with hgetc
  subst hgetc
  split at h
  · -- hit branch
    rename_i hhit
    -- the hit block is valid, so the set is not empty
    have hszne : ¬ sz = 0 := by
      intro hsz0
      have := hOk.2.2.2
      rw [if_pos hsz0] at this
      have hxv := this.2.2 x (by rw [hdec]; exact List.mem_append_right _ (by simp))
      rw [hhit.2] at hxv
      exact absurd hxv (by simp)
    have hOkx := hOk.2.2.2
    rw [if_neg hszne] at hOkx
    obtain ⟨⟨xl, hxl, hxtail⟩, hlen, hszE, hvalid, htags⟩ := hOkx
    split at h
    · -- size > 1
      rename_i hsz1
      split at h
      · -- prev NULL: no structural change (also the buggy stale-prev case)
        rename_i hprev
        injection h with h1; subst h1
        exact ⟨⟨cs, hcs, hsetsL, hsizeL, hnd, hSets, hdisj, hcover⟩,
          fun j hj => ⟨rfl, rfl, rfl⟩⟩
      · rename_i p hprev
        split at h
        · -- middle of the list (lines 138-145)
          rename_i nxv hnxv
          cases l2 with
          | nil =>
            have h0 : x.2.next = none :=
              (chainSeg_split (j := l1) (x := x) (k := []) (hdec ▸ hOk.1)).2.2.2.1
            rw [h0] at hnxv
            exact absurd hnxv (by simp)
          | cons y2 l2x =>
          obtain ⟨y2a, n2⟩ := y2
          have hsplitx := chainSeg_split (j := l1) (x := x) (k := (y2a, n2) :: l2x)
            (hdec ▸ hOk.1)
          have hy2eq : x.2.next = some y2a := hsplitx.2.2.2.1
          rw [hnxv] at hy2eq
          injection hy2eq with hy2eq
          have hy2eq2 : y2a = nxv := hy2eq.symm
          subst hy2eq2
          split at h; · exact (by injection h)
          rename_i h1w hm1
          split at h; · exact (by injection h)
          rename_i n1 hgn1
          split at h; · exact (by injection h)
          rename_i nx hnx
          split at h; · exact (by injection h)
          rename_i h2w hm2
          split at h; · exact (by injection h)
          rename_i h3w hm3
          split at h; · exact (by injection h)
          rename_i h4w hm4
          injection h with h1
          subst h1
          obtain rfl := hmodM_some hm1
          have hndc := hOk.2.1
          have hckeys : chainKeys c = chainKeys l1 ++ x.1 :: y2a :: chainKeys l2x := by
            rw [hdec]; simp [chainKeys]
          have hndcc : (chainKeys l1 ++ x.1 :: y2a :: chainKeys l2x).Nodup := hckeys ▸ hndc
          obtain ⟨hndA, hndxT, hdisjA⟩ := List.nodup_append.mp hndcc
          obtain ⟨hx1T, hndy2T⟩ := List.nodup_cons.mp hndxT
          obtain ⟨hy2B, hndB⟩ := List.nodup_cons.mp hndy2T
          have hx1nl1 : x.1 ∉ chainKeys l1 := fun hm => hdisjA hm (by simp)
          have hy2nl1 : y2a ∉ chainKeys l1 := fun hm => hdisjA hm (by simp)
          have hy2x1 : y2a ≠ x.1 := fun he => hx1T (by rw [← he]; simp)
          have hx1y2 : x.1 ≠ y2a := fun he => hy2x1 he.symm
          have hl1e : endPtr none l1 = some p := by
            rcases hsplitx.2.2.1 with hnone | he
            · rw [hprev] at hnone
              exact absurd hnone (by simp)
            · rw [hprev] at he
              exact he.symm
          obtain ⟨yP, hyP⟩ : ∃ y, l1.getLast? = some y := by
            unfold endPtr at hl1e
            rcases hgl : l1.getLast? with _ | y
            · rw [hgl] at hl1e
              exact absurd hl1e (by simp)
            · exact ⟨y, rfl⟩
          have hyPk : yP.1 = p := by
            unfold endPtr at hl1e
            rw [hyP] at hl1e
            injection hl1e
          obtain ⟨ys3, hl1eq⟩ := List.getLast?_eq_some_iff.mp hyP
          have hpl1 : p ∈ chainKeys l1 := by
            rw [hl1eq, ← hyPk]
            simp [chainKeys]
          have hpx1 : p ≠ x.1 := fun he => hx1nl1 (he ▸ hpl1)
          have hx1p : x.1 ≠ p := fun he => hpx1 he.symm
          have hpy2 : p ≠ y2a := fun he => hdisjA hpl1 (by rw [he]; simp)
          have hy2p : y2a ≠ p := fun he => hpy2 he.symm
          -- resolve the re-read of curr (line 141)
          rw [hget_hmod, if_neg hx1p, hgx] at hgn1
          injection hgn1 with hgn1
          subst hgn1
          rw [hnxv] at hnx
          injection hnx with hnx
          subst hnx
          obtain rfl := hmodM_some hm2
          obtain rfl := hmodM_some hm3
          obtain rfl := hmodM_some hm4
          obtain ⟨yPa, yPn⟩ := yP
          have hyPk2 : p = yPa := hyPk.symm
          subst hyPk2
          cases l1 with
          | nil => simp at hl1eq
          | cons z zs =>
          obtain ⟨rfl, hrest0⟩ : z = (a0, n0) ∧ rest0 = zs ++ x :: (y2a, n2) :: l2x := by
            have h0 := hceq.symm.trans hdec
            injection h0 with e1 e2
            exact ⟨e1.symm, e2⟩
          have hchainl1 := hsplitx.1
          have hga0 : hget st.heap a0 = some n0 :=
            chainSeg_hget hOk.1 (a0, n0) (by rw [hceq]; simp)
          have ha0x1 : a0 ≠ x.1 := by
            intro he
            exact hx1nl1 (he ▸ (by simp [chainKeys] : a0 ∈ chainKeys ((a0, n0) :: zs)))
          have hx1a0 : x.1 ≠ a0 := fun he => ha0x1 he.symm
          generalize hH2 : (hmod (hmod (hmod (hmod st.heap p fun m => { m with next := x.2.next }) y2a fun m => { m with prev := x.2.prev }) x.1 fun m => { m with next := some a0 }) x.1 fun m => { m with prev := none }) = H4
          have hKeys2 : keys H4 = keys st.heap := by
            rw [← hH2, keys_hmod, keys_hmod, keys_hmod, keys_hmod]
          have hkeys_iff2 : ∀ k, k ∈ keys H4
              ↔ ((k ∈ keys st.heap ∧ k ∉ ([] : List Nat)) ∨ k ∈ ([] : List Nat)) := by
            intro k
            rw [hKeys2]
            simp
          have hnd22 : (keys H4).Nodup := by
            rw [hKeys2]; exact hnd
          have hgetx : hget H4 x.1 = some { x.2 with next := some a0, prev := none } := by
            rw [← hH2]
            rw [hget_hmod, if_pos rfl, hget_hmod, if_pos rfl, hget_hmod, if_neg hx1y2,
              hget_hmod, if_neg hx1p, hgx]
            rfl
          have hgety2base : hget st.heap y2a = some n2 := hsplitx.2.2.2.2.1
          have hgety2 : hget H4 y2a = some { n2 with prev := x.2.prev } := by
            rw [← hH2]
            rw [hget_hmod, if_neg hy2x1, hget_hmod, if_neg hy2x1, hget_hmod, if_pos rfl,
              hget_hmod, if_neg hy2p, hgety2base]
            rfl
          have hframe3 : ∀ k, k ∉ chainKeys c → k ∉ ([] : List Nat) →
              hget H4 k = hget st.heap k := by
            intro k hkc h0
            have hkx : k ≠ x.1 := fun he =>
              hkc (by rw [hckeys]; exact List.mem_append_right _ (by simp [he]))
            have hky2 : k ≠ y2a := fun he =>
              hkc (by rw [hckeys]; exact List.mem_append_right _ (by simp [he]))
            have hkp : k ≠ p := fun he =>
              hkc (by rw [hckeys]; exact List.mem_append_left _ (he ▸ hpl1))
            rw [← hH2]
            rw [hget_hmod, if_neg hkx, hget_hmod, if_neg hkx, hget_hmod, if_neg hky2,
              hget_hmod, if_neg hkp]
          have hl2xframe : ∀ q ∈ l2x, hget H4 q.1 = hget st.heap q.1 := by
            intro q hq
            have h1 : q.1 ∈ chainKeys l2x := List.mem_map_of_mem _ hq
            have hqx : q.1 ≠ x.1 := fun he =>
              hx1T (by rw [← he]; exact List.mem_cons_of_mem _ h1)
            have hqy2 : q.1 ≠ y2a := fun he => hy2B (he ▸ h1)
            have hqp : q.1 ≠ p := fun he =>
              hdisjA hpl1 (List.mem_cons_of_mem _ (List.mem_cons_of_mem _ (he ▸ h1)))
            rw [← hH2]
            rw [hget_hmod, if_neg hqx, hget_hmod, if_neg hqx, hget_hmod, if_neg hqy2,
              hget_hmod, if_neg hqp]
          have hl2xchain : ChainSeg st.heap (some y2a) none l2x := hsplitx.2.2.2.2.2.2.2
          have hl2xchainH : ChainSeg H4 (some y2a) none l2x :=
            chainSeg_frame hl2xframe hl2xchain
          have htailseg : ChainSeg H4 (some p) none
              ((y2a, { n2 with prev := x.2.prev }) :: l2x) :=
            ⟨hgety2, Or.inr hprev, hsplitx.2.2.2.2.2.2.1, hl2xchainH⟩
          have hsplitP := chainSeg_split (j := ys3) (x := ((p : Nat), yPn)) (k := [])
            (hl1eq ▸ hchainl1)
          have hgetp4 : hget H4 p = some { yPn with next := x.2.next } := by
            rw [← hH2]
            rw [hget_hmod, if_neg hpx1, hget_hmod, if_neg hpx1, hget_hmod, if_neg hpy2,
              hget_hmod, if_pos rfl, hsplitP.2.1]
            rfl
          rw [hdec] at htags
          simp only [List.map_append, List.map_cons] at htags
          have htagsMid := List.nodup_middle.mp htags
          have hLc : ((y2a, n2) :: l2x).getLast? = some xl := by
            rw [hdec, getLast?_append_cons, List.getLast?_cons_cons] at hxl
            exact hxl
          have hkey2 : ((y2a, { n2 with prev := x.2.prev }) :: l2x).getLast?.map Prod.fst
              = some xl.1 := by
            rw [getLast?_key_cons y2a n2 ({ n2 with prev := x.2.prev }) l2x, hLc]
            rfl
          obtain ⟨w2, hw2⟩ : ∃ w2, ((y2a, { n2 with prev := x.2.prev }) :: l2x).getLast?
              = some w2 := by
            rcases hgw : ((y2a, { n2 with prev := x.2.prev }) :: l2x).getLast? with _ | w2
            · rw [hgw] at hkey2
              exact absurd hkey2 (by simp)
            · exact ⟨w2, hgw⟩
          have hw2k : w2.1 = xl.1 := by
            rw [hw2] at hkey2
            injection hkey2
          cases ys3 with
          | nil =>
            simp only [List.nil_append] at hl1eq
            injection hl1eq with e1 e2
            subst e2
            injection e1 with ea en
            subst en
            subst ea
            have hprevA : n0.prev = none := by
              rcases hsplitP.2.2.1 with h0 | h0
              · exact h0
              · exact h0
            refine Inv_rebuild
              (d := (x.1, { x.2 with next := some a0, prev := none })
                :: (a0, { n0 with next := x.2.next })
                :: (y2a, { n2 with prev := x.2.prev }) :: l2x)
              (u := ([] : List Nat)) (v := ([] : List Nat))
              hcs hsetsL hsizeL hSets hdisj hcover hsi hcsi
              (by simp [hsetsL]) hsizeL
              (List.getElem?_set_self (hsetsL ▸ hsi)) hsize
              (fun j hj => List.getElem?_set_ne (fun he => hj he.symm))
              (fun j hj => rfl)
              hkeys_iff2 hnd22
              (fun k hk => absurd hk (by simp))
              (fun k hk => absurd hk (by simp))
              (fun k hk => absurd hk (by simp))
              (by intro k hk
                  refine Or.inl ?_
                  rw [hckeys]
                  simp only [chainKeys, List.map_cons, List.map_nil, List.mem_cons,
                    List.mem_append, List.not_mem_nil, or_false] at hk ⊢
                  tauto)
              (by intro k hkc h0
                  rw [hckeys] at hkc
                  simp only [chainKeys, List.map_cons, List.map_nil, List.mem_cons,
                    List.mem_append, List.not_mem_nil, or_false] at hkc ⊢
                  tauto)
              hframe3 ?_
            refine ⟨⟨hgetx, Or.inl rfl, rfl, hgetp4, Or.inl hprevA, hnxv, htailseg⟩,
              ?_, ⟨_, _, rfl, rfl⟩, ?_⟩
            · simpa [chainKeys] using List.nodup_middle.mp hndcc
            · rw [if_neg hszne]
              rw [hdec] at hlen
              simp only [List.length_append, List.length_cons, List.length_nil] at hlen
              refine ⟨⟨w2, ?_, ?_⟩, ?_, by omega, ?_, ?_⟩
              · rw [show (x.1, ({ x.2 with next := some a0, prev := none } : Node))
                    :: (a0, { n0 with next := x.2.next })
                    :: (y2a, { n2 with prev := x.2.prev }) :: l2x
                    = [(x.1, ({ x.2 with next := some a0, prev := none } : Node)),
                      (a0, { n0 with next := x.2.next })]
                      ++ (y2a, { n2 with prev := x.2.prev }) :: l2x from rfl,
                  getLast?_append_cons]
                exact hw2
              · rw [hxtail, hw2k]
              · simp only [List.length_cons]
                omega
              · intro q hq
                rcases List.mem_cons.mp hq with rfl | hq2
                · exact hhit.2
                rcases List.mem_cons.mp hq2 with rfl | hq3
                · exact hvalid (a0, n0) (by rw [hdec]; simp)
                rcases List.mem_cons.mp hq3 with rfl | hq4
                · exact hvalid (y2a, n2) (by rw [hdec]; simp)
                · exact hvalid q (by
                    rw [hdec]
                    refine List.mem_append_right _ ?_
                    exact List.mem_cons_of_mem _ (List.mem_cons_of_mem _ hq4))
              · simpa using htagsMid
          | cons w ys4 =>
            simp only [List.cons_append] at hl1eq
            injection hl1eq with e1 e2
            obtain rfl : w = (a0, n0) := e1.symm
            subst e2
            have hndl1 : (a0 :: (chainKeys ys4 ++ [p])).Nodup := by
              simpa [chainKeys] using hndA
            have ha0ys4 : a0 ∉ chainKeys ys4 ∧ a0 ≠ p := by
              have h0 := (List.nodup_cons.mp hndl1).1
              simp only [List.mem_append, List.mem_singleton] at h0
              exact ⟨fun hm => h0 (Or.inl hm), fun he => h0 (Or.inr he)⟩
            have hndtl : (chainKeys ys4 ++ [p]).Nodup := (List.nodup_cons.mp hndl1).2
            have hys4p : ∀ q ∈ ys4, q.1 ≠ p := by
              intro q hq he
              have h1 : q.1 ∈ chainKeys ys4 := List.mem_map_of_mem _ hq
              exact (List.nodup_append.mp hndtl).2.2 h1 (by rw [he]; simp)
            have hmidframe : ∀ q ∈ (a0, n0) :: ys4, hget H4 q.1 = hget st.heap q.1 := by
              intro q hq
              have h1 : q.1 ∈ chainKeys ((a0, n0) :: ys4) := List.mem_map_of_mem _ hq
              have h2 : q.1 ∈ chainKeys ((a0, n0) :: (ys4 ++ [(p, yPn)])) := by
                simp only [chainKeys, List.map_cons, List.map_append, List.mem_cons,
                  List.mem_append] at h1 ⊢
                tauto
              have hqx : q.1 ≠ x.1 := fun he => hdisjA (he ▸ h2) (by simp)
              have hqy2 : q.1 ≠ y2a := fun he => hdisjA (he ▸ h2) (by simp)
              have hqp : q.1 ≠ p := by
                rcases List.mem_cons.mp hq with rfl | hq2
                · exact ha0ys4.2
                · exact hys4p q hq2
              rw [← hH2]
              rw [hget_hmod, if_neg hqx, hget_hmod, if_neg hqx, hget_hmod, if_neg hqy2,
                hget_hmod, if_neg hqp]
            have hmidchain : ChainSeg H4 (some x.1) (some p) ((a0, n0) :: ys4) := by
              refine chainSeg_frame hmidframe ?_
              refine chainSeg_pa hsplitP.1 ?_
              exact Or.inl (chainSeg_head_prev (hceq ▸ hOk.1))
            have hprevP : yPn.prev = none
                ∨ yPn.prev = endPtr (some x.1) ((a0, n0) :: ys4) := by
              rcases hsplitP.2.2.1 with h0 | h0
              · exact Or.inl h0
              · refine Or.inr ?_
                rw [endPtr_cons]
                rw [endPtr_cons] at h0
                exact h0
            have hjoined := chainSeg_join (x := ((p : Nat), { yPn with next := x.2.next }))
              (k := (y2a, { n2 with prev := x.2.prev }) :: l2x)
              hmidchain hgetp4 hprevP hnxv htailseg
            refine Inv_rebuild
              (d := (x.1, { x.2 with next := some a0, prev := none })
                :: (a0, n0)
                :: (ys4 ++ (p, { yPn with next := x.2.next })
                  :: (y2a, { n2 with prev := x.2.prev }) :: l2x))
              (u := ([] : List Nat)) (v := ([] : List Nat))
              hcs hsetsL hsizeL hSets hdisj hcover hsi hcsi
              (by simp [hsetsL]) hsizeL
              (List.getElem?_set_self (hsetsL ▸ hsi)) hsize
              (fun j hj => List.getElem?_set_ne (fun he => hj he.symm))
              (fun j hj => rfl)
              hkeys_iff2 hnd22
              (fun k hk => absurd hk (by simp))
              (fun k hk => absurd hk (by simp))
              (fun k hk => absurd hk (by simp))
              (by intro k hk
                  refine Or.inl ?_
                  rw [hckeys]
                  simp only [chainKeys, List.map_cons, List.map_append, List.map_nil,
                    List.mem_cons, List.mem_append, List.mem_singleton,
                    List.not_mem_nil, or_false] at hk ⊢
                  tauto)
              (by intro k hkc h0
                  rw [hckeys] at hkc
                  simp only [chainKeys, List.map_cons, List.map_append, List.map_nil,
                    List.mem_cons, List.mem_append, List.mem_singleton,
                    List.not_mem_nil, or_false] at hkc ⊢
                  tauto)
              hframe3 ?_
            refine ⟨⟨hgetx, Or.inl rfl, rfl, hjoined⟩,
              ?_, ⟨_, _, rfl, rfl⟩, ?_⟩
            · simpa [chainKeys] using List.nodup_middle.mp hndcc
            · rw [if_neg hszne]
              rw [hdec] at hlen
              simp only [List.length_append, List.length_cons, List.length_nil] at hlen
              refine ⟨⟨w2, ?_, ?_⟩, ?_, by omega, ?_, ?_⟩
              · rw [show (x.1, ({ x.2 with next := some a0, prev := none } : Node))
                    :: (a0, n0)
                    :: (ys4 ++ (p, { yPn with next := x.2.next })
                      :: (y2a, { n2 with prev := x.2.prev }) :: l2x)
                    = ((x.1, ({ x.2 with next := some a0, prev := none } : Node))
                      :: (a0, n0) :: ys4 ++ [(p, { yPn with next := x.2.next })])
                      ++ (y2a, { n2 with prev := x.2.prev }) :: l2x from by simp,
                  getLast?_append_cons]
                exact hw2
              · rw [hxtail, hw2k]
              · simp only [List.length_cons, List.length_append]
                omega
              · intro q hq
                rcases List.mem_cons.mp hq with rfl | hq2
                · exact hhit.2
                rcases List.mem_cons.mp hq2 with rfl | hq3
                · exact hvalid (a0, n0) (by rw [hdec]; simp)
                rcases List.mem_append.mp hq3 with hq4 | hq5
                · exact hvalid q (by
                    rw [hdec]
                    exact List.mem_append_left _
                      (List.mem_cons_of_mem _ (List.mem_append_left _ hq4)))
                rcases List.mem_cons.mp hq5 with rfl | hq6
                · exact hvalid (p, yPn) (by
                    rw [hdec]
                    exact List.mem_append_left _
                      (List.mem_cons_of_mem _ (List.mem_append_right _ (by simp))))
                rcases List.mem_cons.mp hq6 with rfl | hq7
                · exact hvalid (y2a, n2) (by rw [hdec]; simp)
                · exact hvalid q (by
                    rw [hdec]
                    refine List.mem_append_right _ ?_
                    exact List.mem_cons_of_mem _ (List.mem_cons_of_mem _ hq7))
              · simpa using htagsMid
        · -- tail of the list (lines 146-154)
          rename_i hxnext
          have hl2nil : l2 = [] := by
            cases l2 with
            | nil => rfl
            | cons y2 l2x =>
              have h0 : x.2.next = some y2.1 :=
                (chainSeg_split (j := l1) (x := x) (k := y2 :: l2x) (hdec ▸ hOk.1)).2.2.2.1
              rw [hxnext] at h0
              exact absurd h0 (by simp)
          subst hl2nil
          have hsplitx := chainSeg_split (j := l1) (x := x) (k := []) (hdec ▸ hOk.1)
          split at h; · exact (by injection h)
          rename_i h1w hm1
          split at h; · exact (by injection h)
          rename_i n1 hgn1
          split at h; · exact (by injection h)
          rename_i h2w hm2
          split at h; · exact (by injection h)
          rename_i h3w hm3
          split at h; · exact (by injection h)
          rename_i h4w hm4
          injection h with h1
          subst h1
          obtain rfl := hmodM_some hm1
          obtain rfl := hmodM_some hm2
          obtain rfl := hmodM_some hm3
          obtain rfl := hmodM_some hm4
          -- the stop is the tail: its prev points to the last element of l1
          have hl1e : endPtr none l1 = some p := by
            rcases hsplitx.2.2.1 with hnone | he
            · rw [hprev] at hnone
              exact absurd hnone (by simp)
            · rw [hprev] at he
              exact he.symm
          obtain ⟨yP, hyP⟩ : ∃ y, l1.getLast? = some y := by
            unfold endPtr at hl1e
            rcases hgl : l1.getLast? with _ | y
            · rw [hgl] at hl1e
              exact absurd hl1e (by simp)
            · exact ⟨y, rfl⟩
          have hyPk : yP.1 = p := by
            unfold endPtr at hl1e
            rw [hyP] at hl1e
            injection hl1e
          obtain ⟨ys3, hl1eq⟩ := List.getLast?_eq_some_iff.mp hyP
          have hndc := hOk.2.1
          have hckeys : chainKeys c = chainKeys l1 ++ [x.1] := by
            rw [hdec]; simp [chainKeys]
          have hndl1x : (chainKeys l1 ++ [x.1]).Nodup := hckeys ▸ hndc
          have hx1nl1 : x.1 ∉ chainKeys l1 := by
            intro hmem
            exact (List.nodup_append.mp hndl1x).2.2 hmem (by simp)
          have hpl1 : p ∈ chainKeys l1 := by
            rw [hl1eq, ← hyPk]
            simp [chainKeys]
          have hpx1 : p ≠ x.1 := fun he => hx1nl1 (he ▸ hpl1)
          have hx1p : x.1 ≠ p := fun he => hpx1 he.symm
          -- resolve the re-read of curr (line 149)
          rw [hget_hmod, if_neg hx1p, hgx] at hgn1
          injection hgn1 with hgn1
          subst hgn1
          obtain ⟨yPa, yPn⟩ := yP
          have hyPk2 : p = yPa := hyPk.symm
          subst hyPk2
          cases l1 with
          | nil => simp at hl1eq
          | cons z zs =>
          obtain ⟨rfl, hrest0⟩ : z = (a0, n0) ∧ rest0 = zs ++ [x] := by
            have h0 := hceq.symm.trans hdec
            injection h0 with e1 e2
            exact ⟨e1.symm, e2⟩
          have hchainl1 := hsplitx.1
          have hga0 : hget st.heap a0 = some n0 :=
            chainSeg_hget hOk.1 (a0, n0) (by rw [hceq]; simp)
          have ha0x1 : a0 ≠ x.1 := by
            intro he
            exact hx1nl1 (he ▸ (by simp [chainKeys] : a0 ∈ chainKeys ((a0, n0) :: zs)))
          have hx1a0 : x.1 ≠ a0 := fun he => ha0x1 he.symm
          generalize hH2 : (hmod (hmod (hmod (hmod st.heap p fun m => { m with next := none }) x.1 fun m => { m with prev := none }) a0 fun m => { m with prev := some x.1 }) x.1 fun m => { m with next := some a0 }) = H4
          have hKeys2 : keys H4 = keys st.heap := by
            rw [← hH2, keys_hmod, keys_hmod, keys_hmod, keys_hmod]
          have hkeys_iff2 : ∀ k, k ∈ keys H4
              ↔ ((k ∈ keys st.heap ∧ k ∉ ([] : List Nat)) ∨ k ∈ ([] : List Nat)) := by
            intro k
            rw [hKeys2]
            simp
          have hnd22 : (keys H4).Nodup := by
            rw [hKeys2]; exact hnd
          have hgetx : hget H4 x.1 = some { x.2 with prev := none, next := some a0 } := by
            rw [← hH2]
            rw [hget_hmod, if_pos rfl, hget_hmod, if_neg hx1a0, hget_hmod, if_pos rfl,
              hget_hmod, if_neg hx1p, hgx]
            rfl
          have hframe3 : ∀ k, k ∉ chainKeys c → k ∉ ([] : List Nat) →
              hget H4 k = hget st.heap k := by
            intro k hkc h0
            have hkx : k ≠ x.1 := fun he =>
              hkc (by rw [hckeys]; exact List.mem_append_right _ (by simp [he]))
            have hka0 : k ≠ a0 := fun he => hkc (by
              rw [hckeys]
              exact List.mem_append_left _ (he ▸ (by simp [chainKeys] :
                a0 ∈ chainKeys ((a0, n0) :: zs))))
            have hkp : k ≠ p := fun he =>
              hkc (by rw [hckeys]; exact List.mem_append_left _ (he ▸ hpl1))
            rw [← hH2]
            rw [hget_hmod, if_neg hkx, hget_hmod, if_neg hka0, hget_hmod, if_neg hkx,
              hget_hmod, if_neg hkp]
          rw [hdec] at htags
          simp only [List.map_append, List.map_cons, List.map_nil] at htags
          have htagsl1 : (List.map (fun q => q.2.tag) ((a0, n0) :: zs)).Nodup :=
            (List.nodup_append.mp htags).1
          have hxtagl1 : ∀ t ∈ List.map (fun q => q.2.tag) ((a0, n0) :: zs),
              t ≠ x.2.tag := by
            intro t ht he
            exact (List.nodup_append.mp htags).2.2 ht (by simp [he])
          cases ys3 with
          | nil =>
            simp only [List.nil_append] at hl1eq
            injection hl1eq with e1 e2
            subst e2
            injection e1 with ea en
            subst en
            subst ea
            have hgeta0 : hget H4 a0 = some { n0 with next := none, prev := some x.1 } := by
              rw [← hH2]
              rw [hget_hmod, if_neg ha0x1, hget_hmod, if_pos rfl, hget_hmod, if_neg ha0x1,
                hget_hmod, if_pos rfl, hga0]
              rfl
            refine Inv_rebuild
              (d := [(x.1, { x.2 with prev := none, next := some a0 }),
                (a0, { n0 with next := none, prev := some x.1 })])
              (u := ([] : List Nat)) (v := ([] : List Nat))
              hcs hsetsL hsizeL hSets hdisj hcover hsi hcsi
              (by simp [hsetsL]) hsizeL
              (List.getElem?_set_self (hsetsL ▸ hsi)) hsize
              (fun j hj => List.getElem?_set_ne (fun he => hj he.symm))
              (fun j hj => rfl)
              hkeys_iff2 hnd22
              (fun k hk => absurd hk (by simp))
              (fun k hk => absurd hk (by simp))
              (fun k hk => absurd hk (by simp))
              (by intro k hk
                  simp only [chainKeys, List.map_cons, List.map_nil, List.mem_cons,
                    List.not_mem_nil, or_false] at hk
                  refine Or.inl ?_
                  rw [hckeys]
                  rcases hk with rfl | rfl
                  · exact List.mem_append_right _ (by simp)
                  · exact List.mem_append_left _ (by simp [chainKeys]))
              (by intro k hkc h0
                  rw [hckeys] at hkc
                  simp only [chainKeys, List.map_cons, List.map_nil, List.mem_append,
                    List.mem_cons, List.not_mem_nil, or_false, List.mem_singleton] at hkc ⊢
                  tauto)
              hframe3 ?_
            refine ⟨⟨hgetx, Or.inl rfl, rfl, hgeta0, Or.inr rfl, rfl, trivial⟩,
              ?_, ⟨_, _, rfl, rfl⟩, ?_⟩
            · simp only [chainKeys, List.map_cons, List.map_nil]
              refine List.nodup_cons.mpr ⟨?_, by simp⟩
              simp only [List.mem_cons, List.not_mem_nil, or_false, List.mem_singleton]
              omega
            · rw [if_neg hszne]
              rw [hdec] at hlen
              simp only [List.length_append, List.length_cons, List.length_nil] at hlen
              refine ⟨⟨(a0, { n0 with next := none, prev := some x.1 }), rfl, hprev⟩,
                ?_, by omega, ?_, ?_⟩
              · simp only [List.length_cons, List.length_nil]
                omega
              · intro q hq
                rcases List.mem_cons.mp hq with rfl | hq2
                · exact hhit.2
                rcases List.mem_cons.mp hq2 with rfl | hq3
                · exact hvalid (a0, n0) (by rw [hdec]; simp)
                · simp at hq3
              · simp only [List.map_cons, List.map_nil]
                refine List.nodup_cons.mpr ⟨?_, by simp⟩
                simp only [List.mem_cons, List.not_mem_nil, or_false, List.mem_singleton]
                exact fun he => hxtagl1 n0.tag (by simp) he.symm
          | cons w ys4 =>
            simp only [List.cons_append] at hl1eq
            injection hl1eq with e1 e2
            obtain rfl : w = (a0, n0) := e1.symm
            subst e2
            have hndl1 : (a0 :: (chainKeys ys4 ++ [p])).Nodup := by
              have h0 := (List.nodup_append.mp hndl1x).1
              simpa [chainKeys] using h0
            have ha0ys4 : a0 ∉ chainKeys ys4 ∧ a0 ≠ p := by
              have h0 := (List.nodup_cons.mp hndl1).1
              simp only [List.mem_append, List.mem_singleton] at h0
              exact ⟨fun hm => h0 (Or.inl hm), fun he => h0 (Or.inr he)⟩
            have hndtl : (chainKeys ys4 ++ [p]).Nodup := (List.nodup_cons.mp hndl1).2
            have hys4p : ∀ q ∈ ys4, q.1 ≠ p := by
              intro q hq he
              have h1 : q.1 ∈ chainKeys ys4 := List.mem_map_of_mem _ hq
              exact (List.nodup_append.mp hndtl).2.2 h1 (by rw [he]; simp)
            have hpa0 : p ≠ a0 := fun he => ha0ys4.2 he.symm
            have hchaintl : ChainSeg st.heap (some a0) (some x.1) (ys4 ++ [(p, yPn)]) :=
              hchainl1.2.2.2
            have hsplit2 := chainSeg_split (j := ys4) (x := (p, yPn)) (k := []) hchaintl
            have hgetyP : hget st.heap p = some yPn := hsplit2.2.1
            have hgeta0B : hget H4 a0 = some { n0 with prev := some x.1 } := by
              rw [← hH2]
              rw [hget_hmod, if_neg ha0x1, hget_hmod, if_pos rfl, hget_hmod, if_neg ha0x1,
                hget_hmod, if_neg ha0ys4.2, hga0]
              rfl
            have hgetp4 : hget H4 p = some { yPn with next := none } := by
              rw [← hH2]
              rw [hget_hmod, if_neg hpx1, hget_hmod, if_neg hpa0, hget_hmod, if_neg hpx1,
                hget_hmod, if_pos rfl, hgetyP]
              rfl
            have hys4frame : ∀ q ∈ ys4, hget H4 q.1 = hget st.heap q.1 := by
              intro q hq
              have h1 : q.1 ∈ chainKeys ys4 := List.mem_map_of_mem _ hq
              have hql1 : q.1 ∈ chainKeys ((a0, n0) :: (ys4 ++ [(p, yPn)])) := by
                simp only [chainKeys, List.map_cons, List.map_append, List.mem_cons,
                  List.mem_append]
                exact Or.inr (Or.inl h1)
              have hqx : q.1 ≠ x.1 := fun he => hx1nl1 (he ▸ hql1)
              have hqa0 : q.1 ≠ a0 := fun he => ha0ys4.1 (he ▸ h1)
              have hqp : q.1 ≠ p := hys4p q hq
              rw [← hH2]
              rw [hget_hmod, if_neg hqx, hget_hmod, if_neg hqa0, hget_hmod, if_neg hqx,
                hget_hmod, if_neg hqp]
            have hchainys4 : ChainSeg H4 (some a0) (some p) ys4 :=
              chainSeg_frame hys4frame hsplit2.1
            have hchaintail2 : ChainSeg H4 (some a0) none
                (ys4 ++ [(p, { yPn with next := none })]) :=
              chainSeg_join hchainys4 hgetp4 hsplit2.2.2.1 rfl trivial
            refine Inv_rebuild
              (d := (x.1, { x.2 with prev := none, next := some a0 })
                :: (a0, { n0 with prev := some x.1 })
                :: (ys4 ++ [(p, { yPn with next := none })]))
              (u := ([] : List Nat)) (v := ([] : List Nat))
              hcs hsetsL hsizeL hSets hdisj hcover hsi hcsi
              (by simp [hsetsL]) hsizeL
              (List.getElem?_set_self (hsetsL ▸ hsi)) hsize
              (fun j hj => List.getElem?_set_ne (fun he => hj he.symm))
              (fun j hj => rfl)
              hkeys_iff2 hnd22
              (fun k hk => absurd hk (by simp))
              (fun k hk => absurd hk (by simp))
              (fun k hk => absurd hk (by simp))
              (by intro k hk
                  simp only [chainKeys, List.map_cons, List.map_append, List.map_nil,
                    List.mem_cons, List.mem_append, List.mem_singleton,
                    List.not_mem_nil, or_false] at hk
                  refine Or.inl ?_
                  rw [hckeys]
                  rcases hk with rfl | hk2
                  · exact List.mem_append_right _ (by simp)
                  · refine List.mem_append_left _ ?_
                    simp only [chainKeys, List.map_cons, List.map_append, List.map_nil,
                      List.mem_cons, List.mem_append, List.mem_singleton,
                      List.not_mem_nil, or_false]
                    exact hk2)
              (by intro k hkc h0
                  rw [hckeys] at hkc
                  rcases List.mem_append.mp hkc with hk1 | hk2
                  · simp only [chainKeys, List.map_cons, List.map_append, List.map_nil,
                      List.mem_cons, List.mem_append, List.mem_singleton,
                      List.not_mem_nil, or_false] at hk1 ⊢
                    exact Or.inr hk1
                  · simp only [chainKeys, List.map_cons, List.map_append, List.map_nil,
                      List.mem_cons, List.mem_append, List.mem_singleton,
                      List.not_mem_nil, or_false] at hk2 ⊢
                    exact Or.inl hk2)
              hframe3 ?_
            refine ⟨⟨hgetx, Or.inl rfl, rfl, hgeta0B, Or.inr rfl, ?_, hchaintail2⟩,
              ?_, ⟨_, _, rfl, rfl⟩, ?_⟩
            · have h0 := hchainl1.2.2.1
              cases ys4 with
              | nil => exact h0
              | cons q qs => exact h0
            · simp only [chainKeys, List.map_cons, List.map_append, List.map_nil]
              refine List.nodup_cons.mpr ⟨?_, ?_⟩
              · intro hm
                simp only [List.mem_cons, List.mem_append, List.mem_singleton,
                  List.not_mem_nil, or_false] at hm
                refine hx1nl1 ?_
                simp only [chainKeys, List.map_cons, List.map_append, List.map_nil,
                  List.mem_cons, List.mem_append, List.mem_singleton,
                  List.not_mem_nil, or_false]
                exact hm
              · simpa [chainKeys] using hndl1
            · rw [if_neg hszne]
              rw [hdec] at hlen
              simp only [List.length_append, List.length_cons, List.length_nil] at hlen
              refine ⟨⟨(p, { yPn with next := none }), ?_, hprev⟩, ?_, by omega, ?_, ?_⟩
              · rw [show (x.1, ({ x.2 with prev := none, next := some a0 } : Node))
                    :: (a0, { n0 with prev := some x.1 })
                    :: (ys4 ++ [(p, { yPn with next := none })])
                    = ((x.1, ({ x.2 with prev := none, next := some a0 } : Node))
                      :: (a0, { n0 with prev := some x.1 }) :: ys4)
                      ++ [(p, { yPn with next := none })] from by simp,
                  List.getLast?_concat]
              · simp only [List.length_cons, List.length_append, List.length_nil]
                omega
              · intro q hq
                rcases List.mem_cons.mp hq with rfl | hq2
                · exact hhit.2
                rcases List.mem_cons.mp hq2 with rfl | hq3
                · exact hvalid (a0, n0) (by rw [hdec]; simp)
                rcases List.mem_append.mp hq3 with hq4 | hq5
                · exact hvalid q (by
                    rw [hdec]
                    exact List.mem_append_left _
                      (List.mem_cons_of_mem _ (List.mem_append_left _ hq4)))
                · rw [List.mem_singleton.mp hq5]
                  exact hvalid (p, yPn) (by
                    rw [hdec]
                    exact List.mem_append_left _
                      (List.mem_cons_of_mem _ (List.mem_append_right _ (by simp))))
              · simp only [List.map_cons, List.map_append, List.map_nil]
                refine List.nodup_cons.mpr ⟨?_, ?_⟩
                · intro hm
                  simp only [List.mem_cons, List.mem_append, List.mem_singleton,
                    List.not_mem_nil, or_false] at hm
                  rcases hm with he | hm2 | he
                  · refine hxtagl1 n0.tag ?_ he.symm
                    simp only [List.map_cons, List.map_append, List.mem_cons,
                      List.mem_append]
                    exact Or.inl trivial
                  · obtain ⟨q, hq, hqt⟩ := List.mem_map.mp hm2
                    refine hxtagl1 q.2.tag ?_ hqt
                    simp only [List.map_cons, List.map_append, List.mem_cons,
                      List.mem_append]
                    exact Or.inr (Or.inl (List.mem_map_of_mem _ hq))
                  · refine hxtagl1 yPn.tag ?_ he.symm
                    simp only [List.map_cons, List.map_append, List.mem_cons,
                      List.mem_append]
                    refine Or.inr (Or.inr ?_)
                    simp
                · simpa using htagsl1
    · -- size ≤ 1: no structural change
      rename_i hsz1
      injection h with h1; subst h1
      exact ⟨⟨cs, hcs, hsetsL, hsizeL, hnd, hSets, hdisj, hcover⟩,
        fun j hj => ⟨rfl, rfl, rfl⟩⟩
  · -- miss branch
    rename_i hmiss
    split at h
    · -- size 0: the sentinel is reused
      rename_i hsz0
      subst hsz0
      split at h; · exact (by injection h)
      rename_i h1w hm1
      injection h with h1; subst h1
      obtain rfl := hmodM_some hm1
      have hOk0 := hOk.2.2.2
      rw [if_pos rfl] at hOk0
      obtain ⟨htail0, hlen1, hinval⟩ := hOk0
      rw [hdec] at hlen1
      simp only [List.length_append, List.length_cons] at hlen1
      obtain ⟨rfl, rfl⟩ : l1 = [] ∧ l2 = [] := by
        constructor <;> (apply List.length_eq_zero.mp; omega)
      simp only [List.nil_append] at hdec
      subst hdec
      obtain ⟨xa, xn⟩ := x
      have hprevx : xn.prev = none := chainSeg_head_prev hOk.1
      have hnextx : xn.next = none := hOk.1.2.2.1
      have hx1c : xa ∈ chainKeys [(xa, xn)] := by simp [chainKeys]
      have hgx2 : hget (hmod st.heap xa fun m => { m with tag := tagOf s b a, valid := true })
          xa = some { xn with tag := tagOf s b a, valid := true } := by
        rw [hget_hmod, if_pos rfl, hgx]
        rfl
      exact Inv_rebuild
        (d := [(xa, { xn with tag := tagOf s b a, valid := true })])
        (u := []) (v := [])
        hcs hsetsL hsizeL hSets hdisj hcover hsi hcsi
        (by simp [hsetsL]) (by simp [hsizeL])
        (List.getElem?_set_self (hsetsL ▸ hsi)) (List.getElem?_set_self (hsizeL ▸ hsi))
        (fun j hj => List.getElem?_set_ne (fun he => hj he.symm))
        (fun j hj => List.getElem?_set_ne (fun he => hj he.symm))
        (by simp [keys_hmod]) (by simpa [keys_hmod] using hnd)
        (by simp) (by simp) (by simp)
        (by intro k hk; exact Or.inl (by simpa [chainKeys] using hk))
        (by intro k hk _; simpa [chainKeys] using hk)
        (by intro k hkc _
            have hne : k ≠ xa := fun he => hkc (by rw [he]; exact hx1c)
            rw [hget_hmod, if_neg hne])
        ⟨⟨hgx2, Or.inl hprevx, hnextx, trivial⟩, by simp [chainKeys],
          ⟨_, [], rfl, rfl⟩, by
            rw [if_neg (by simp)]
            exact ⟨⟨_, rfl, rfl⟩, by simp, by omega, by simp, by simp⟩⟩
    · -- size ≠ 0: optional eviction, then insertion
      rename_i hsz0
      have hOkx := hOk.2.2.2
      rw [if_neg hsz0] at hOkx
      obtain ⟨⟨xl, hxl, hxtail⟩, hlen, hszE, hvalid, htags⟩ := hOkx
      -- on a miss the loop stopped at the last element without a tag match
      have hxmem : x ∈ c := by rw [hdec]; exact List.mem_append_right _ (by simp)
      have hxv : x.2.valid = true := hvalid x hxmem
      have hxt : x.2.tag ≠ tagOf s b a := fun he => hmiss ⟨he, hxv⟩
      obtain ⟨-, rfl⟩ : (x.2.tag ≠ tagOf s b a ∧ l2 = []) := by
        rcases hxtag with he | h2t
        · exact absurd he hxt
        · exact h2t
      have htagfree : ∀ p ∈ c, p.2.tag ≠ tagOf s b a := by
        intro p hp
        rw [hdec] at hp
        rcases List.mem_append.mp hp with h1 | h2
        · exact hl1tags p h1
        · rw [List.mem_singleton.mp h2]
          exact hxt
      -- the loop stop is the list tail
      have hxlx : xl = x := by
        rw [hdec, List.getLast?_concat] at hxl
        injection hxl with hxl
        exact hxl.symm
      rw [hxlx] at hxl hxtail
      split at h; · exact (by injection h)
      rename_i h2w tl2 sz2 ev2 hevict
      split at h; · exact (by injection h)
      rename_i hfresh
      split at h; · exact (by injection h)
      rename_i h3w hm3
      injection h with h1; subst h1
      obtain rfl := hmodM_some hm3
      simp only [evictIfFull] at hevict
      split at hevict
      · -- the set was full: the tail block is deleted first
        rename_i hEsz
        rw [hxtail] at hevict
        simp only [hgx] at hevict
        have hsplitx := chainSeg_split (j := l1) (x := x) (k := []) (hdec ▸ hOk.1)
        rcases hp2e : x.2.prev with _ | p2
        · rw [hp2e] at hevict
          exact absurd hevict (by simp)
        rw [hp2e] at hevict
        have hl1e : endPtr none l1 = some p2 := by
          rcases hsplitx.2.2.1 with hnone | he
          · rw [hp2e] at hnone
            exact absurd hnone (by simp)
          · rw [hp2e] at he
            exact he.symm
        obtain ⟨yP, hyP⟩ : ∃ y, l1.getLast? = some y := by
          unfold endPtr at hl1e
          rcases hgl : l1.getLast? with _ | y
          · rw [hgl] at hl1e
            exact absurd hl1e (by simp)
          · exact ⟨y, rfl⟩
        have hyPk : yP.1 = p2 := by
          unfold endPtr at hl1e
          rw [hyP] at hl1e
          injection hl1e
        obtain ⟨ys3, hl1eq⟩ := List.getLast?_eq_some_iff.mp hyP
        have hevict2 : (match hmodM (hfree st.heap x.1) p2
              (fun m => { m with next := none }) with
            | none => none
            | some h2 => some (h2, some p2, sz - 1, st.evictions + 1))
              = some (h2w, tl2, sz2, ev2) := hevict
        rcases hmv : hmodM (hfree st.heap x.1) p2 (fun m => { m with next := none })
          with _ | h2v
        · rw [hmv] at hevict2
          exact absurd hevict2 (by simp)
        rw [hmv] at hevict2
        have hevict3 : some ((h2v, some p2, sz - 1, st.evictions + 1) :
            Heap × Option Nat × Nat × Nat) = some (h2w, tl2, sz2, ev2) := hevict2
        simp only [Option.some.injEq, Prod.mk.injEq] at hevict3
        obtain ⟨rfl, rfl, rfl, rfl⟩ : h2v = h2w ∧ some p2 = tl2 ∧ sz - 1 = sz2
            ∧ st.evictions + 1 = ev2 :=
          ⟨hevict3.1, hevict3.2.1, hevict3.2.2.1, hevict3.2.2.2⟩
        obtain rfl := hmodM_some hmv
        -- key bookkeeping
        have hndc := hOk.2.1
        have hckeys : chainKeys c = chainKeys l1 ++ [x.1] := by
          rw [hdec]; simp [chainKeys]
        have hndl1x : (chainKeys l1 ++ [x.1]).Nodup := hckeys ▸ hndc
        have hx1nl1 : x.1 ∉ chainKeys l1 := by
          intro hmem
          exact (List.nodup_append.mp hndl1x).2.2 hmem (by simp)
        have hp2l1 : p2 ∈ chainKeys l1 := by
          rw [hl1eq, ← hyPk]
          simp [chainKeys]
        have hp2x1 : p2 ≠ x.1 := fun he => hx1nl1 (he ▸ hp2l1)
        have hKh2v : keys (hmod (hfree st.heap x.1) p2 fun m => { m with next := none })
            = (keys st.heap).erase x.1 := by
          rw [keys_hmod, keys_hfree]
        rw [hKh2v] at hfresh
        have hfx1 : ∀ k, k ∈ keys st.heap → k ≠ x.1 → k ≠ f := by
          intro k hk hkx he
          exact hfresh (he ▸ (hnd.mem_erase_iff ..).mpr ⟨hkx, hk⟩)
        -- the head of the chain heads l1 as well
        cases l1 with
        | nil => simp at hl1eq
        | cons z zs =>
        obtain ⟨rfl, hrest0⟩ : z = (a0, n0) ∧ rest0 = zs ++ [x] := by
          have := hceq.symm.trans hdec
          injection this with e1 e2
          exact ⟨e1.symm, e2⟩
        have hga0 : hget st.heap a0 = some n0 :=
          chainSeg_hget hOk.1 (a0, n0) (by rw [hceq]; simp)
        have ha0x1 : a0 ≠ x.1 := by
          intro he
          exact hx1nl1 (he ▸ (by simp [chainKeys] : a0 ∈ chainKeys ((a0, n0) :: zs)))
        have ha0f : a0 ≠ f := hfx1 a0 (mem_keys_of_hget hga0) ha0x1
        have hchainl1 := hsplitx.1
        obtain ⟨yPa, yPn⟩ := yP
        have hyPk2 : p2 = yPa := hyPk.symm
        subst hyPk2
        -- abbreviate the new heap
        generalize hH2 : ((f, ({ tag := tagOf s b a, valid := true, next := some a0, prev := none } : Node)) :: hmod (hmod (hfree st.heap x.1) p2 fun m => { m with next := none }) a0 fun m => { m with prev := some f }) = H2
        have hKeys2 : keys H2 = f :: (keys st.heap).erase x.1 := by
          rw [← hH2]
          show f :: keys (hmod (hmod (hfree st.heap x.1) p2 fun m => { m with next := none })
            a0 fun m => { m with prev := some f }) = _
          rw [keys_hmod, keys_hmod, keys_hfree]
        have hkeys_iff2 : ∀ k, k ∈ keys H2
            ↔ ((k ∈ keys st.heap ∧ k ∉ ([x.1] : List Nat)) ∨ k ∈ ([f] : List Nat)) := by
          intro k
          rw [hKeys2]
          simp only [List.mem_cons, List.mem_singleton, List.not_mem_nil, or_false,
            hnd.mem_erase_iff]
          tauto
        have hnd22 : (keys H2).Nodup := by
          rw [hKeys2]
          exact List.nodup_cons.mpr ⟨hfresh, hnd.erase _⟩
        have hrem_sub2 : ∀ k ∈ ([x.1] : List Nat), k ∈ chainKeys c := by
          intro k hk
          rw [List.mem_singleton.mp hk, hckeys]
          exact List.mem_append_right _ (by simp)
        have hnw_fresh2 : ∀ k ∈ ([f] : List Nat),
            k ∉ keys st.heap ∨ k ∈ ([x.1] : List Nat) := by
          intro k hk
          rw [List.mem_singleton.mp hk]
          by_cases hf : f ∈ keys st.heap
          · right
            simp only [List.mem_singleton]
            by_contra hne
            exact hfresh ((hnd.mem_erase_iff ..).mpr ⟨hne, hf⟩)
          · exact Or.inl hf
        have hl1f : ∀ k ∈ chainKeys ((a0, n0) :: zs), k ≠ f := by
          intro k hk
          exact hfx1 k
            (chainKeys_subset_keys hOk.1 k (by rw [hckeys]; exact List.mem_append_left _ hk))
            (fun he => hx1nl1 (he ▸ hk))
        have hframe3 : ∀ k, k ∉ chainKeys c → k ∉ ([f] : List Nat) →
            hget H2 k = hget st.heap k := by
          intro k hkc hkf2
          have hkf : k ≠ f := by simpa using hkf2
          have hka0 : k ≠ a0 := fun he => hkc (by
            rw [hckeys]
            exact List.mem_append_left _ (he ▸ (by simp [chainKeys] :
              a0 ∈ chainKeys ((a0, n0) :: zs))))
          have hkp2 : k ≠ p2 := fun he =>
            hkc (by rw [hckeys]; exact List.mem_append_left _ (he ▸ hp2l1))
          have hkx : k ≠ x.1 := fun he =>
            hkc (by rw [hckeys]; exact List.mem_append_right _ (by simp [he]))
          rw [← hH2]
          simp only [hget, if_neg hkf]
          rw [hget_hmod, if_neg hka0, hget_hmod, if_neg hkp2, hget_hfree_ne hkx]
        have hgetf2 : hget H2 f
            = some { tag := tagOf s b a, valid := true, next := some a0, prev := none } := by
          rw [← hH2]
          simp [hget]
        have htagsl1 : (List.map (fun p => p.2.tag) ((a0, n0) :: zs)).Nodup := by
          rw [hdec] at htags
          simp only [List.map_append] at htags
          exact (List.nodup_append.mp htags).1
        have htagfree1 : ∀ p ∈ (a0, n0) :: zs, p.2.tag ≠ tagOf s b a := fun p hp =>
          htagfree p (by rw [hdec]; exact List.mem_append_left _ hp)
        cases ys3 with
        | nil =>
          simp only [List.nil_append] at hl1eq
          injection hl1eq with e1 e2
          subst e2
          injection e1 with ea en
          subst en
          subst ea
          have hnx0 : n0.next = some x.1 := hchainl1.2.2.1
          have hgeta0 : hget H2 a0 = some { n0 with next := none, prev := some f } := by
            rw [← hH2]
            simp only [hget, if_neg ha0f]
            rw [hget_hmod, if_pos rfl, hget_hmod, if_pos rfl, hget_hfree_ne ha0x1, hga0]
            rfl
          refine Inv_rebuild
            (d := [(f, { tag := tagOf s b a, valid := true, next := some a0, prev := none }),
              (a0, { n0 with next := none, prev := some f })])
            (u := [x.1]) (v := [f])
            hcs hsetsL hsizeL hSets hdisj hcover hsi hcsi
            (by simp [hsetsL]) (by simp [hsizeL])
            (List.getElem?_set_self (hsetsL ▸ hsi)) (List.getElem?_set_self (hsizeL ▸ hsi))
            (fun j hj => List.getElem?_set_ne (fun he => hj he.symm))
            (fun j hj => List.getElem?_set_ne (fun he => hj he.symm))
            hkeys_iff2 hnd22 hrem_sub2 hnw_fresh2
            (by intro k hk; rw [List.mem_singleton.mp hk]; simp [chainKeys])
            (by intro k hk
                simp only [chainKeys, List.map_cons, List.map_nil, List.mem_cons,
                  List.not_mem_nil, or_false] at hk
                rcases hk with rfl | rfl
                · exact Or.inr (by simp)
                · exact Or.inl (by
                    rw [hckeys]
                    exact List.mem_append_left _ (by simp [chainKeys])))
            (by intro k hkc hkr
                rw [hckeys] at hkc
                simp only [chainKeys, List.map_cons, List.map_nil, List.mem_append,
                  List.mem_cons, List.not_mem_nil, or_false, List.mem_singleton] at hkc hkr ⊢
                rcases hkc with rfl | rfl
                · exact Or.inr rfl
                · exact absurd rfl hkr)
            hframe3 ?_
          refine ⟨⟨hgetf2, Or.inl rfl, rfl, hgeta0, Or.inr rfl, rfl, trivial⟩,
            ?_, ⟨_, _, rfl, rfl⟩, ?_⟩
          · simp only [chainKeys, List.map_cons, List.map_nil]
            refine List.nodup_cons.mpr ⟨?_, by simp⟩
            simp only [List.mem_cons, List.not_mem_nil, or_false, List.mem_singleton]
            omega
          · rw [if_neg (by omega)]
            rw [hdec] at hlen
            simp only [List.length_append, List.length_cons, List.length_nil] at hlen
            refine ⟨⟨_, rfl, rfl⟩, ?_, by omega, ?_, ?_⟩
            · simp only [List.length_cons, List.length_nil]
              omega
            · intro p hp
              rcases List.mem_cons.mp hp with rfl | hp2
              · rfl
              rcases List.mem_cons.mp hp2 with rfl | hp3
              · exact hvalid (a0, n0) (by rw [hdec]; simp)
              · simp at hp3
            · simp only [List.map_cons, List.map_nil]
              refine List.nodup_cons.mpr ⟨?_, by simp⟩
              simp only [List.mem_cons, List.not_mem_nil, or_false, List.mem_singleton]
              exact fun he => htagfree1 (a0, n0) (by simp) he.symm
        | cons w ys4 =>
          simp only [List.cons_append] at hl1eq
          injection hl1eq with e1 e2
          subst e2
          obtain rfl : w = (a0, n0) := e1.symm
          have hndl1 : (a0 :: (chainKeys ys4 ++ [p2])).Nodup := by
            have h0 := (List.nodup_append.mp hndl1x).1
            simpa [chainKeys] using h0
          have ha0ys4 : a0 ∉ chainKeys ys4 ∧ a0 ≠ p2 := by
            have h0 := (List.nodup_cons.mp hndl1).1
            simp only [List.mem_append, List.mem_singleton] at h0
            exact ⟨fun hm => h0 (Or.inl hm), fun he => h0 (Or.inr he)⟩
          have hndtl : (chainKeys ys4 ++ [p2]).Nodup := (List.nodup_cons.mp hndl1).2
          have hys4p2 : ∀ q ∈ ys4, q.1 ≠ p2 := by
            intro q hq he
            have h1 : q.1 ∈ chainKeys ys4 := List.mem_map_of_mem _ hq
            exact (List.nodup_append.mp hndtl).2.2 h1 (by rw [he]; simp)
          have hp2keys : p2 ∈ keys st.heap :=
            chainKeys_subset_keys hOk.1 p2 (by rw [hckeys]; exact List.mem_append_left _ hp2l1)
          have hp2f : p2 ≠ f := hfx1 p2 hp2keys hp2x1
          have hchaintl : ChainSeg st.heap (some a0) (some x.1) (ys4 ++ [(p2, yPn)]) :=
            hchainl1.2.2.2
          have hsplit2 := chainSeg_split (j := ys4) (x := (p2, yPn)) (k := []) hchaintl
          have hgetyP : hget st.heap p2 = some yPn := hsplit2.2.1
          have hgeta0B : hget H2 a0 = some { n0 with prev := some f } := by
            rw [← hH2]
            simp only [hget, if_neg ha0f]
            rw [hget_hmod, if_pos rfl, hget_hmod, if_neg ha0ys4.2, hget_hfree_ne ha0x1, hga0]
            rfl
          have hgetp2 : hget H2 p2 = some { yPn with next := none } := by
            rw [← hH2]
            simp only [hget, if_neg hp2f]
            rw [hget_hmod, if_neg (fun he => ha0ys4.2 he.symm), hget_hmod, if_pos rfl,
              hget_hfree_ne hp2x1, hgetyP]
            rfl
          have hys4frame : ∀ q ∈ ys4, hget H2 q.1 = hget st.heap q.1 := by
            intro q hq
            have h1 : q.1 ∈ chainKeys ys4 := List.mem_map_of_mem _ hq
            have hql1 : q.1 ∈ chainKeys ((a0, n0) :: (ys4 ++ [(p2, yPn)])) := by
              simp only [chainKeys, List.map_cons, List.map_append, List.mem_cons,
                List.mem_append]
              exact Or.inr (Or.inl h1)
            have hqx : q.1 ≠ x.1 := fun he => hx1nl1 (he ▸ hql1)
            have hqf : q.1 ≠ f := hl1f q.1 hql1
            have hqa0 : q.1 ≠ a0 := fun he => ha0ys4.1 (he ▸ h1)
            have hqp2 : q.1 ≠ p2 := hys4p2 q hq
            rw [← hH2]
            simp only [hget, if_neg hqf]
            rw [hget_hmod, if_neg hqa0, hget_hmod, if_neg hqp2, hget_hfree_ne hqx]
          have hchainys4 : ChainSeg H2 (some a0) (some p2) ys4 :=
            chainSeg_frame hys4frame hsplit2.1
          have hchaintail2 : ChainSeg H2 (some a0) none
              (ys4 ++ [(p2, { yPn with next := none })]) :=
            chainSeg_join hchainys4 hgetp2 hsplit2.2.2.1 rfl trivial
          refine Inv_rebuild
            (d := (f, { tag := tagOf s b a, valid := true, next := some a0, prev := none })
              :: (a0, { n0 with prev := some f })
              :: (ys4 ++ [(p2, { yPn with next := none })]))
            (u := [x.1]) (v := [f])
            hcs hsetsL hsizeL hSets hdisj hcover hsi hcsi
            (by simp [hsetsL]) (by simp [hsizeL])
            (List.getElem?_set_self (hsetsL ▸ hsi)) (List.getElem?_set_self (hsizeL ▸ hsi))
            (fun j hj => List.getElem?_set_ne (fun he => hj he.symm))
            (fun j hj => List.getElem?_set_ne (fun he => hj he.symm))
            hkeys_iff2 hnd22 hrem_sub2 hnw_fresh2
            (by intro k hk; rw [List.mem_singleton.mp hk]; simp [chainKeys])
            (by intro k hk
                simp only [chainKeys, List.map_cons, List.map_append, List.map_nil,
                  List.mem_cons, List.mem_append, List.mem_singleton,
                  List.not_mem_nil, or_false] at hk
                rcases hk with rfl | hk2
                · exact Or.inr (by simp)
                · refine Or.inl ?_
                  rw [hckeys]
                  refine List.mem_append_left _ ?_
                  simp only [chainKeys, List.map_cons, List.map_append, List.map_nil,
                    List.mem_cons, List.mem_append, List.mem_singleton,
                    List.not_mem_nil, or_false]
                  exact hk2)
            (by intro k hkc hkr
                rw [hckeys] at hkc
                rcases List.mem_append.mp hkc with hk1 | hk2
                · simp only [chainKeys, List.map_cons, List.map_append, List.map_nil,
                    List.mem_cons, List.mem_append, List.mem_singleton,
                    List.not_mem_nil, or_false] at hk1 ⊢
                  exact Or.inr hk1
                · exact absurd (List.mem_singleton.mp hk2) (by simpa using hkr))
            hframe3 ?_
          refine ⟨⟨hgetf2, Or.inl rfl, rfl, hgeta0B, Or.inr rfl, ?_, hchaintail2⟩,
            ?_, ⟨_, _, rfl, rfl⟩, ?_⟩
          · have h0 := hchainl1.2.2.1
            cases ys4 with
            | nil => exact h0
            | cons q qs => exact h0
          · simp only [chainKeys, List.map_cons, List.map_append, List.map_nil]
            refine List.nodup_cons.mpr ⟨?_, ?_⟩
            · intro hm
              simp only [List.mem_cons, List.mem_append, List.mem_singleton,
                List.not_mem_nil, or_false] at hm
              refine hl1f f ?_ rfl
              simp only [chainKeys, List.map_cons, List.map_append, List.map_nil,
                List.mem_cons, List.mem_append, List.mem_singleton,
                List.not_mem_nil, or_false]
              exact hm
            · simpa [chainKeys] using hndl1
          · rw [if_neg (by omega)]
            rw [hdec] at hlen
            simp only [List.length_append, List.length_cons, List.length_nil] at hlen
            refine ⟨⟨(p2, { yPn with next := none }), ?_, rfl⟩, ?_, by omega, ?_, ?_⟩
            · rw [show (f, ({ tag := tagOf s b a, valid := true, next := some a0, prev := none } : Node))
                  :: (a0, { n0 with prev := some f })
                  :: (ys4 ++ [(p2, { yPn with next := none })])
                  = ((f, ({ tag := tagOf s b a, valid := true, next := some a0, prev := none } : Node))
                    :: (a0, { n0 with prev := some f }) :: ys4)
                    ++ [(p2, { yPn with next := none })] from by simp,
                List.getLast?_concat]
            · simp only [List.length_cons, List.length_append, List.length_nil]
              omega
            · intro p hp
              rcases List.mem_cons.mp hp with rfl | hp2
              · rfl
              rcases List.mem_cons.mp hp2 with rfl | hp3
              · exact hvalid (a0, n0) (by rw [hdec]; simp)
              rcases List.mem_append.mp hp3 with hp4 | hp5
              · exact hvalid p (by
                  rw [hdec]
                  exact List.mem_append_left _
                    (List.mem_cons_of_mem _ (List.mem_append_left _ hp4)))
              · rw [List.mem_singleton.mp hp5]
                exact hvalid (p2, yPn) (by
                  rw [hdec]
                  exact List.mem_append_left _
                    (List.mem_cons_of_mem _ (List.mem_append_right _ (by simp))))
            · simp only [List.map_cons, List.map_append, List.map_nil]
              refine List.nodup_cons.mpr ⟨?_, ?_⟩
              · intro hm
                simp only [List.mem_cons, List.mem_append, List.mem_singleton,
                  List.not_mem_nil, or_false] at hm
                rcases hm with he | hm2 | he
                · exact htagfree1 (a0, n0) (by simp) he.symm
                · obtain ⟨q, hq, hqt⟩ := List.mem_map.mp hm2
                  exact htagfree1 q
                    (List.mem_cons_of_mem _ (List.mem_append_left _ hq)) hqt
                · exact htagfree1 (p2, yPn)
                    (List.mem_cons_of_mem _ (List.mem_append_right _ (by simp))) he.symm
              · simpa using htagsl1
      · -- the set was not full: plain insertion
        rename_i hEsz
        simp only [Option.some.injEq, Prod.mk.injEq] at hevict
        obtain ⟨rfl, rfl, rfl, rfl⟩ : st.heap = h2w ∧ sh.tail = tl2 ∧ sz = sz2
            ∧ st.evictions = ev2 := ⟨hevict.1, hevict.2.1, hevict.2.2.1, hevict.2.2.2⟩
        have hga0 : hget st.heap a0 = some n0 :=
          chainSeg_hget hOk.1 (a0, n0) (by rw [hceq]; simp)
        have ha0mem : a0 ∈ chainKeys c := by rw [hceq]; simp [chainKeys]
        have ha0f : a0 ≠ f := fun he => hfresh (he ▸ mem_keys_of_hget hga0)
        have hndc : (chainKeys c).Nodup := hOk.2.1
        have hck : chainKeys c = a0 :: chainKeys rest0 := by rw [hceq]; rfl
        have hrest0 : ∀ p ∈ rest0, hget
            ((f, { tag := tagOf s b a, valid := true, next := some a0, prev := none }) ::
              hmod st.heap a0 fun m => { m with prev := some f }) p.1
            = hget st.heap p.1 := by
          intro p hp
          have hpc : p.1 ∈ chainKeys c := by
            rw [hck]
            exact List.mem_cons_of_mem _ (List.mem_map_of_mem _ hp)
          have hpf : p.1 ≠ f := fun he =>
            hfresh (he ▸ chainKeys_subset_keys hOk.1 p.1 hpc)
          have hpa0 : p.1 ≠ a0 := by
            intro he
            have := hck ▸ hndc
            rw [List.nodup_cons] at this
            exact this.1 (he ▸ List.mem_map_of_mem _ hp)
          simp only [hget, if_neg hpf]
          rw [hget_hmod, if_neg hpa0]
        have hgetf : hget
            ((f, { tag := tagOf s b a, valid := true, next := some a0, prev := none }) ::
              hmod st.heap a0 fun m => { m with prev := some f }) f
            = some { tag := tagOf s b a, valid := true, next := some a0, prev := none } := by
          simp [hget]
        have hgeta0 : hget
            ((f, { tag := tagOf s b a, valid := true, next := some a0, prev := none }) ::
              hmod st.heap a0 fun m => { m with prev := some f }) a0
            = some { n0 with prev := some f } := by
          simp only [hget, if_neg ha0f]
          rw [hget_hmod, if_pos rfl, hga0]
          rfl
        have hchainrest : ChainSeg st.heap (some a0) none rest0 := (hceq ▸ hOk.1).2.2.2
        have hnext0 := (hceq ▸ hOk.1 :
          ChainSeg st.heap none none ((a0, n0) :: rest0)).2.2.1
        refine Inv_rebuild
          (d := (f, { tag := tagOf s b a, valid := true, next := some a0, prev := none })
            :: (a0, { n0 with prev := some f }) :: rest0)
          (u := []) (v := [f])
          hcs hsetsL hsizeL hSets hdisj hcover hsi hcsi
          (by simp [hsetsL]) (by simp [hsizeL])
          (List.getElem?_set_self (hsetsL ▸ hsi)) (List.getElem?_set_self (hsizeL ▸ hsi))
          (fun j hj => List.getElem?_set_ne (fun he => hj he.symm))
          (fun j hj => List.getElem?_set_ne (fun he => hj he.symm))
          (by intro k
              simp only [keys, List.map_cons, List.mem_cons]
              rw [show List.map Prod.fst (hmod st.heap a0 fun m => { m with prev := some f })
                  = keys st.heap from keys_hmod ..]
              simp only [List.mem_singleton, List.not_mem_nil, not_false_iff, and_true]
              tauto)
          (by simp only [keys, List.map_cons]
              rw [show List.map Prod.fst (hmod st.heap a0 fun m => { m with prev := some f })
                  = keys st.heap from keys_hmod ..]
              exact List.nodup_cons.mpr ⟨hfresh, hnd⟩)
          (by simp)
          (by intro k hk; rw [List.mem_singleton.mp hk]; exact Or.inl hfresh)
          (by intro k hk; rw [List.mem_singleton.mp hk]; simp [chainKeys])
          (by intro k hk
              simp only [chainKeys, List.map_cons, List.mem_cons] at hk
              rcases hk with rfl | hk2
              · exact Or.inr (by simp)
              · exact Or.inl (by rw [hck]; simpa [chainKeys] using hk2))
          (by intro k hk _
              rw [hck] at hk
              simp only [chainKeys, List.map_cons, List.mem_cons]
              rcases List.mem_cons.mp hk with rfl | hk2
              · exact Or.inr (Or.inl rfl)
              · exact Or.inr (Or.inr (by simpa [chainKeys] using hk2)))
          (by intro k hkc hknw
              have hkf : k ≠ f := by simpa using hknw
              have hka0 : k ≠ a0 := fun he => hkc (he ▸ ha0mem)
              simp only [hget, if_neg hkf]
              rw [hget_hmod, if_neg hka0])
          ?_
        -- the rebuilt set is well formed
        refine ⟨⟨hgetf, Or.inl rfl, rfl, hgeta0, Or.inr rfl, ?_, chainSeg_frame hrest0 hchainrest⟩,
          ?_, ⟨_, _, rfl, rfl⟩, ?_⟩
        · cases rest0 with
          | nil => exact hnext0
          | cons y t => exact hnext0
        · have hnd3 : (a0 :: chainKeys rest0).Nodup := hck ▸ hndc
          refine List.nodup_cons.mpr ⟨?_, hnd3⟩
          intro hmem
          rcases List.mem_cons.mp hmem with he | hmem2
          · exact ha0f he.symm
          · exact hfresh (chainKeys_subset_keys hchainrest f
              (by simpa [chainKeys] using hmem2))
        · rw [if_neg (by omega)]
          have hlast : ((a0, { n0 with prev := some f }) :: rest0).getLast?.map Prod.fst
              = some x.1 := by
            rw [getLast?_key_cons a0 n0, ← hceq, hdec, List.getLast?_concat]
            rfl
          obtain ⟨y, hy1, hy2⟩ := Option.map_eq_some'.mp hlast
          refine ⟨⟨y, ?_, ?_⟩, ?_, by omega, ?_, ?_⟩
          · rw [List.getLast?_cons_cons]
            exact hy1
          · rw [hxtail, hy2]
          · have : c.length = rest0.length + 1 := by rw [hceq]; rfl
            simp only [List.length_cons]
            omega
          · intro p hp
            rcases List.mem_cons.mp hp with rfl | hp2
            · rfl
            rcases List.mem_cons.mp hp2 with rfl | hp3
            · exact hvalid (a0, n0) (by rw [hceq]; simp)
            · exact hvalid p (by rw [hceq]; exact List.mem_cons_of_mem _ hp3)
          · simp only [List.map_cons]
            have hmapc : List.map (fun p => p.2.tag) c
                = n0.tag :: List.map (fun p => p.2.tag) rest0 := by rw [hceq]; rfl
            refine List.nodup_cons.mpr ⟨?_, hmapc ▸ htags⟩
            rw [← hmapc]
            intro hmem
            obtain ⟨p, hp, hpt⟩ := List.mem_map.mp hmem
            exact htagfree p hp hpt

/-! ### Pointer renaming: the nondeterminism of malloc -/

theorem length_renameHeap (r : Nat → Nat) (h : Heap) :
    (renameHeap r h).length = h.length := List.length_map ..

theorem keys_renameHeap (r : Nat → Nat) (h : Heap) :
    keys (renameHeap r h) = (keys h).map r := by
  simp [keys, renameHeap, List.map_map]

theorem hget_renameHeap {r : Nat → Nat} (hinj : Function.Injective r) (h : Heap) (a : Nat) :
    hget (renameHeap r h) (r a) = (hget h a).map (renameNode r) := by
  induction h with
  | nil => rfl
  | cons p t ih =>
    obtain ⟨b2, m⟩ := p
    simp only [renameHeap, List.map_cons, hget]
    by_cases hab : a = b2
    · subst hab
      simp
    · rw [if_neg (fun he => hab (hinj he)), if_neg hab]
      exact ih

theorem map_set {α β : Type} (f : α → β) :
    ∀ (l : List α) (i : Nat) (v : α), (l.set i v).map f = (l.map f).set i (f v)
  | [], _, _ => rfl
  | x :: t, 0, v => rfl
  | x :: t, i + 1, v => by
    simp only [List.set, List.map_cons]
    rw [map_set f t i v]

theorem hmod_renameHeap {r : Nat → Nat} (hinj : Function.Injective r) (h : Heap) (a : Nat)
    {g g2 : Node → Node} (hfn : ∀ n, renameNode r (g n) = g2 (renameNode r n)) :
    hmod (renameHeap r h) (r a) g2 = renameHeap r (hmod h a g) := by
  induction h with
  | nil => rfl
  | cons p t ih =>
    obtain ⟨b2, m⟩ := p
    simp only [renameHeap, List.map_cons, hmod]
    by_cases hab : a = b2
    · subst hab
      simp [hfn]
    · rw [if_neg (fun he => hab (hinj he)), if_neg hab]
      simp only [List.map_cons]
      exact congrArg _ ih

theorem hmodM_renameHeap {r : Nat → Nat} (hinj : Function.Injective r) (h : Heap) (a : Nat)
    {g g2 : Node → Node} (hfn : ∀ n, renameNode r (g n) = g2 (renameNode r n)) :
    hmodM (renameHeap r h) (r a) g2 = (hmodM h a g).map (renameHeap r) := by
  simp only [hmodM, hget_renameHeap hinj]
  cases hget h a with
  | none => rfl
  | some n => simp [hmod_renameHeap hinj h a hfn]

theorem hfree_renameHeap {r : Nat → Nat} (hinj : Function.Injective r) (h : Heap) (a : Nat) :
    hfree (renameHeap r h) (r a) = renameHeap r (hfree h a) := by
  induction h with
  | nil => rfl
  | cons p t ih =>
    obtain ⟨b2, m⟩ := p
    simp only [renameHeap, List.map_cons, hfree]
    by_cases hab : a = b2
    · subst hab
      simp
    · rw [if_neg (fun he => hab (hinj he)), if_neg hab]
      simp only [List.map_cons]
      exact congrArg _ ih

theorem findCurr_renameHeap {r : Nat → Nat} (hinj : Function.Injective r) (h : Heap)
    (tag : Nat) : ∀ (fuel a : Nat),
      findCurr (renameHeap r h) tag fuel (r a) = (findCurr h tag fuel a).map r
  | 0, a => rfl
  | fuel + 1, a => by
    simp only [findCurr, hget_renameHeap hinj]
    cases hg : hget h a with
    | none => rfl
    | some n =>
      simp only [Option.map_some']
      show (match (renameNode r n).next with
        | none => some (r a)
        | some a2 => if (renameNode r n).tag = tag then some (r a)
            else findCurr (renameHeap r h) tag fuel a2) = _
      cases hn : n.next with
      | none => simp [renameNode, hn]
      | some a2 =>
        simp only [renameNode, hn, Option.map_some']
        by_cases ht : n.tag = tag
        · simp [ht]
        · simp only [if_neg ht]
          exact findCurr_renameHeap hinj h tag fuel a2

theorem evictIfFull_renameHeap {r : Nat → Nat} (hinj : Function.Injective r) (E : Nat)
    (h : Heap) (tp : Option Nat) (sz ev : Nat) :
    evictIfFull E (renameHeap r h) (tp.map r) sz ev
      = (evictIfFull E h tp sz ev).map
          (fun q => (renameHeap r q.1, q.2.1.map r, q.2.2.1, q.2.2.2)) := by
  simp only [evictIfFull]
  by_cases hEsz : E ≤ sz
  · simp only [if_pos hEsz]
    cases tp with
    | none => rfl
    | some t =>
      simp only [Option.map_some']
      rw [hget_renameHeap hinj]
      cases hg : hget h t with
      | none => rfl
      | some tn =>
        simp only [Option.map_some']
        cases hp : tn.prev with
        | none => simp [renameNode, hp]
        | some p2 =>
          simp only [renameNode, hp, Option.map_some']
          rw [hfree_renameHeap hinj,
            hmodM_renameHeap hinj (hfree h t) p2 (g := fun m => { m with next := none })
              (fun n => rfl)]
          cases hm : hmodM (hfree h t) p2 (fun m => { m with next := none }) with
          | none => rfl
          | some h2 => simp
  · simp [if_neg hEsz]

theorem renameState_sets (r : Nat → Nat) (st : CacheState) :
    (renameState r st).sets = st.sets.map (renameSet r) := rfl

theorem renameState_heap (r : Nat → Nat) (st : CacheState) :
    (renameState r st).heap = renameHeap r st.heap := rfl

theorem renameState_size (r : Nat → Nat) (st : CacheState) :
    (renameState r st).size = st.size := rfl

theorem renameState_hits (r : Nat → Nat) (st : CacheState) :
    (renameState r st).hits = st.hits := rfl

theorem renameState_misses (r : Nat → Nat) (st : CacheState) :
    (renameState r st).misses = st.misses := rfl

theorem renameState_evictions (r : Nat → Nat) (st : CacheState) :
    (renameState r st).evictions = st.evictions := rfl

theorem renameSet_head (r : Nat → Nat) (sh : SetHT) :
    (renameSet r sh).head = sh.head.map r := rfl

theorem renameSet_tail (r : Nat → Nat) (sh : SetHT) :
    (renameSet r sh).tail = sh.tail.map r := rfl

theorem renameNode_tag (r : Nat → Nat) (n : Node) : (renameNode r n).tag = n.tag := rfl

theorem renameNode_valid (r : Nat → Nat) (n : Node) :
    (renameNode r n).valid = n.valid := rfl

theorem renameNode_next (r : Nat → Nat) (n : Node) :
    (renameNode r n).next = n.next.map r := rfl

theorem renameNode_prev (r : Nat → Nat) (n : Node) :
    (renameNode r n).prev = n.prev.map r := rfl

/-- `accessData` commutes with any injective renaming of the malloc pointers:
the C behaviour does not depend on which fresh addresses malloc hands out. -/
theorem accessData_renameState {r : Nat → Nat} (hinj : Function.Injective r)
    (s b E f a : Nat) (st : CacheState) :
    accessData s b E (r f) a (renameState r st)
      = (accessData s b E f a st).map (renameState r) := by
  simp only [accessData, renameState_sets, renameState_heap, renameState_size,
    renameState_hits, renameState_misses, renameState_evictions,
    List.getElem?_map, length_renameHeap]
  cases hs : st.sets[setIndexOf s b a]? with
  | none => rfl
  | some sh =>
  simp only [Option.map_some', renameSet_head]
  cases hh : sh.head with
  | none => rfl
  | some a0 =>
  simp only [Option.map_some']
  rw [findCurr_renameHeap hinj]
  cases hf : findCurr st.heap (tagOf s b a) (st.heap.length + 1) a0 with
  | none => rfl
  | some curr =>
  simp only [Option.map_some']
  rw [hget_renameHeap hinj]
  cases hg : hget st.heap curr with
  | none => rfl
  | some n =>
  simp only [Option.map_some', renameNode_tag, renameNode_valid]
  cases hz : st.size[setIndexOf s b a]? with
  | none => rfl
  | some sz =>
  by_cases hcond : n.tag = tagOf s b a ∧ n.valid = true
  · -- hit branch
    simp only [if_pos hcond]
    by_cases hsz1 : 1 < sz
    · simp only [if_pos hsz1, renameNode_prev]
      cases hp : n.prev with
      | none => simp [renameState]
      | some p =>
      simp only [Option.map_some', renameNode_next]
      cases hn : n.next with
      | some nx =>
        -- middle of the list
        simp only [Option.map_some']
        rw [hmodM_renameHeap hinj st.heap p
          (g := fun m => { m with next := some nx }) (fun m => rfl)]
        cases hm1 : hmodM st.heap p (fun m => { m with next := some nx }) with
        | none => rfl
        | some h1 =>
        simp only [Option.map_some']
        rw [hget_renameHeap hinj]
        cases hgn : hget h1 curr with
        | none => rfl
        | some n1 =>
        simp only [Option.map_some', renameNode_next]
        cases hnn : n1.next with
        | none => rfl
        | some nx2 =>
        simp only [Option.map_some', renameNode_prev]
        rw [hmodM_renameHeap hinj h1 nx2
          (g := fun m => { m with prev := n1.prev }) (fun m => rfl)]
        cases hm2 : hmodM h1 nx2 (fun m => { m with prev := n1.prev }) with
        | none => rfl
        | some h2 =>
        simp only [Option.map_some']
        rw [hmodM_renameHeap hinj h2 curr
          (g := fun m => { m with next := some a0 }) (fun m => rfl)]
        cases hm3 : hmodM h2 curr (fun m => { m with next := some a0 }) with
        | none => rfl
        | some h3 =>
        simp only [Option.map_some']
        rw [hmodM_renameHeap hinj h3 curr
          (g := fun m => { m with prev := none }) (fun m => rfl)]
        cases hm4 : hmodM h3 curr (fun m => { m with prev := none }) with
        | none => rfl
        | some h4 =>
        simp [renameState, renameSet, map_set]
      | none =>
        -- tail of the list
        simp only [Option.map_none']
        rw [hmodM_renameHeap hinj st.heap p
          (g := fun m => { m with next := none }) (fun m => rfl)]
        cases hm1 : hmodM st.heap p (fun m => { m with next := none }) with
        | none => rfl
        | some h1 =>
        simp only [Option.map_some']
        rw [hget_renameHeap hinj]
        cases hgn : hget h1 curr with
        | none => rfl
        | some n1 =>
        simp only [Option.map_some']
        rw [hmodM_renameHeap hinj h1 curr
          (g := fun m => { m with prev := none }) (fun m => rfl)]
        cases hm2 : hmodM h1 curr (fun m => { m with prev := none }) with
        | none => rfl
        | some h2 =>
        simp only [Option.map_some']
        rw [hmodM_renameHeap hinj h2 a0
          (g := fun m => { m with prev := some curr }) (fun m => rfl)]
        cases hm3 : hmodM h2 a0 (fun m => { m with prev := some curr }) with
        | none => rfl
        | some h3 =>
        simp only [Option.map_some']
        rw [hmodM_renameHeap hinj h3 curr
          (g := fun m => { m with next := some a0 }) (fun m => rfl)]
        cases hm4 : hmodM h3 curr (fun m => { m with next := some a0 }) with
        | none => rfl
        | some h4 =>
        simp [renameState, renameSet, renameNode_prev, map_set]
    · simp only [if_neg hsz1]
      simp [renameState]
  · -- miss branch
    simp only [if_neg hcond]
    by_cases hsz0 : sz = 0
    · simp only [if_pos hsz0]
      rw [hmodM_renameHeap hinj st.heap curr
        (g := fun m => { m with tag := tagOf s b a, valid := true }) (fun m => rfl)]
      cases hm1 : hmodM st.heap curr
          (fun m => { m with tag := tagOf s b a, valid := true }) with
      | none => rfl
      | some h1 =>
      simp [renameState, renameSet, map_set]
    · simp only [if_neg hsz0, renameSet_tail]
      rw [evictIfFull_renameHeap hinj]
      cases he : evictIfFull E st.heap sh.tail sz st.evictions with
      | none => rfl
      | some q =>
      obtain ⟨h2, tl2, sz2, ev2⟩ := q
      simp only [Option.map_some']
      rw [keys_renameHeap]
      by_cases hf2 : f ∈ keys h2
      · rw [if_pos (List.mem_map_of_mem r hf2), if_pos hf2]
        rfl
      · rw [if_neg (fun hm => hf2 ((List.mem_map_of_injective hinj).mp hm)),
          if_neg hf2]
        rw [hmodM_renameHeap hinj h2 a0
          (g := fun m => { m with prev := some f }) (fun m => rfl)]
        cases hm1 : hmodM h2 a0 (fun m => { m with prev := some f }) with
        | none => rfl
        | some h3 =>
        simp [renameState, renameSet, renameHeap, renameNode, map_set]

theorem optmap_agree {q w : Nat → Nat} {h : Heap} {o : Option Nat}
    (hok : PtrOk h o) (hag : ∀ k ∈ keys h, q k = w k) : o.map q = o.map w := by
  cases o with
  | none => rfl
  | some a =>
    simp only [Option.map_some']
    rw [hag a hok]

theorem renameState_agree {q w : Nat → Nat} {st : CacheState}
    (hc : PtrClosed st) (hag : ∀ k ∈ keys st.heap, q k = w k) :
    renameState q st = renameState w st := by
  obtain ⟨hh, hsets⟩ := hc
  have e1 : renameHeap q st.heap = renameHeap w st.heap := by
    simp only [renameHeap]
    apply List.map_congr_left
    intro p hp
    have hk : p.1 ∈ keys st.heap := List.mem_map_of_mem _ hp
    have hn := hh p hp
    simp only [renameNode]
    rw [hag p.1 hk, optmap_agree hn.1 hag, optmap_agree hn.2 hag]
  have e2 : st.sets.map (renameSet q) = st.sets.map (renameSet w) := by
    apply List.map_congr_left
    intro sh hsh
    have hs := hsets sh hsh
    simp only [renameSet]
    rw [optmap_agree hs.1 hag, optmap_agree hs.2 hag]
  simp only [renameState, e1, e2]

theorem renameNode_id (n : Node) : renameNode id n = n := by
  simp [renameNode]

theorem renameHeap_id (h : Heap) : renameHeap id h = h := by
  have e0 : renameHeap id h = h.map id := by
    apply List.map_congr_left
    intro p hp
    rw [renameNode_id]
    simp
  rw [e0, List.map_id]

theorem renameSet_id (sh : SetHT) : renameSet id sh = sh := by
  simp [renameSet]

theorem renameState_id (st : CacheState) : renameState id st = st := by
  have e2 : st.sets.map (renameSet id) = st.sets := by
    have : st.sets.map (renameSet id) = st.sets.map id := by
      apply List.map_congr_left
      intro sh hsh
      rw [renameSet_id]
      rfl
    rw [this, List.map_id]
  simp only [renameState, renameHeap_id, e2]

theorem freshId_gt (h : Heap) : ∀ a ∈ keys h, a < freshId h := by
  simp only [freshId]
  induction keys h with
  | nil => simp
  | cons b t ih =>
    intro a ha
    simp only [List.foldr_cons]
    rcases List.mem_cons.mp ha with rfl | ha2
    · exact Nat.lt_of_lt_of_le (Nat.lt_succ_self a) (Nat.le_max_left ..)
    · exact Nat.lt_of_lt_of_le (ih a ha2) (Nat.le_max_right ..)

theorem freshId_fresh (h : Heap) (k : Nat) : freshId h + k ∉ keys h := by
  intro hm
  have := freshId_gt h _ hm
  omega

/-! ### Invariants of reachable states (claims C6, C9, C10) -/

theorem chainSeg_ptrOk {h : Heap} :
    ∀ {c : List (Nat × Node)} {pa : Option Nat},
      ChainSeg h pa none c →
      ∀ q ∈ c,
        (q.2.next = none ∨ ∃ k ∈ chainKeys c, q.2.next = some k)
        ∧ (q.2.prev = none ∨ q.2.prev = pa ∨ ∃ k ∈ chainKeys c, q.2.prev = some k)
  | [], pa, _, q, hq => by simp at hq
  | (a, n) :: rest, pa, hc, q, hq => by
    rcases List.mem_cons.mp hq with rfl | hq2
    · constructor
      · cases rest with
        | nil => exact Or.inl hc.2.2.1
        | cons y t =>
          refine Or.inr ⟨y.1, ?_, ?_⟩
          · exact List.mem_cons_of_mem _ (by simp [chainKeys])
          · have h0 : n.next = some y.1 := hc.2.2.1
            exact h0
      · rcases hc.2.1 with h0 | h0
        · exact Or.inl h0
        · exact Or.inr (Or.inl h0)
    · have ih := chainSeg_ptrOk hc.2.2.2 q hq2
      refine ⟨?_, ?_⟩
      · rcases ih.1 with h0 | ⟨k, hk, h0⟩
        · exact Or.inl h0
        · exact Or.inr ⟨k, List.mem_cons_of_mem _ hk, h0⟩
      · rcases ih.2 with h0 | h0 | ⟨k, hk, h0⟩
        · exact Or.inl h0
        · exact Or.inr (Or.inr ⟨a, by simp [chainKeys], h0⟩)
        · exact Or.inr (Or.inr ⟨k, List.mem_cons_of_mem _ hk, h0⟩)

theorem Inv_ptrClosed {s E : Nat} {st : CacheState} (hInv : Inv s E st) : PtrClosed st := by
  obtain ⟨cs, hcs, hsetsL, hsizeL, hnd, hSets, hdisj, hcover⟩ := hInv
  have hSetsOf : ∀ (j : Nat) (cj : List (Nat × Node)), cs[j]? = some cj →
      ∃ shj szj, st.sets[j]? = some shj ∧ st.size[j]? = some szj
        ∧ SetOk st.heap E shj szj cj := by
    intro j cj hcj
    have hjlt : j < 2 ^ s := hcs ▸ getElem?_some_lt hcj
    obtain ⟨shj, hshj⟩ : ∃ x, st.sets[j]? = some x :=
      ⟨_, List.getElem?_eq_getElem (hsetsL ▸ hjlt)⟩
    obtain ⟨szj, hszj⟩ : ∃ x, st.size[j]? = some x :=
      ⟨_, List.getElem?_eq_getElem (hsizeL ▸ hjlt)⟩
    exact ⟨shj, szj, hshj, hszj, hSets j shj szj cj hshj hszj hcj⟩
  constructor
  · intro p hp
    have hk : p.1 ∈ keys st.heap := List.mem_map_of_mem _ hp
    obtain ⟨i, ci, hci, hkci⟩ := hcover p.1 hk
    obtain ⟨sh, sz, hsh, hsz, hOk⟩ := hSetsOf i ci hci
    obtain ⟨q, hqmem, hq1⟩ := List.mem_map.mp hkci
    have hgq : hget st.heap q.1 = some q.2 := chainSeg_hget hOk.1 q hqmem
    have hgp : hget st.heap p.1 = some p.2 := hget_of_mem_nodup hnd hp
    rw [hq1] at hgq
    rw [hgp] at hgq
    injection hgq with hgq
    obtain ⟨hnx, hpv⟩ := chainSeg_ptrOk hOk.1 q hqmem
    have hsub := chainKeys_subset_keys hOk.1
    constructor
    · rcases hnx with h0 | ⟨k, hk2, h0⟩
      · rw [hgq, h0]
        trivial
      · rw [hgq, h0]
        exact hsub k hk2
    · rcases hpv with h0 | h0 | ⟨k, hk2, h0⟩
      · rw [hgq, h0]
        trivial
      · rw [hgq, h0]
        trivial
      · rw [hgq, h0]
        exact hsub k hk2
  · intro sh hsh
    obtain ⟨i, hi⟩ := List.mem_iff_getElem?.mp hsh
    have hilt : i < 2 ^ s := hsetsL ▸ getElem?_some_lt hi
    obtain ⟨ci, hci⟩ : ∃ x, cs[i]? = some x :=
      ⟨_, List.getElem?_eq_getElem (hcs ▸ hilt)⟩
    obtain ⟨sh2, sz, hsh2, hsz, hOk⟩ := hSetsOf i ci hci
    rw [hi] at hsh2
    injection hsh2 with hsh2
    subst hsh2
    have hsub := chainKeys_subset_keys hOk.1
    obtain ⟨x, rest, hceq, hhead⟩ := hOk.2.2.1
    constructor
    · rw [hhead]
      exact hsub x.1 (by rw [hceq]; simp [chainKeys])
    · by_cases hsz0 : sz = 0
      · have h0 := hOk.2.2.2
        rw [if_pos hsz0] at h0
        rw [h0.1]
        trivial
      · have h0 := hOk.2.2.2
        rw [if_neg hsz0] at h0
        obtain ⟨⟨y, hy1, hy2⟩, -⟩ := h0
        rw [hy2]
        obtain ⟨ys, hys⟩ := List.getLast?_eq_some_iff.mp hy1
        exact hsub y.1 (by rw [hys]; simp [chainKeys])

theorem runAddrsA_inv {s b E : Nat} {g : CacheState → Nat} (hE : 1 ≤ E) :
    ∀ {addrs : List Nat} {st st2 : CacheState},
      Inv s E st → runAddrsA s b E g addrs st = some st2 → Inv s E st2
  | [], st, st2, hInv, h => by
    simp only [runAddrsA] at h
    injection h with h
    exact h ▸ hInv
  | a :: rest, st, st2, hInv, h => by
    simp only [runAddrsA] at h
    split at h
    · exact absurd h (by simp)
    · rename_i st1 hacc
      exact runAddrsA_inv hE ((accessData_step hE hInv hacc).1) h

theorem Inv_SetInvariants {s E : Nat} {st : CacheState} (hInv : Inv s E st) :
    SetInvariants E st := by
  obtain ⟨cs, hcs, hsetsL, hsizeL, hnd, hSets, hdisj, hcover⟩ := hInv
  intro i hilt2
  have hilt : i < 2 ^ s := hsetsL ▸ hilt2
  obtain ⟨sh, hsh⟩ : ∃ x, st.sets[i]? = some x :=
    ⟨_, List.getElem?_eq_getElem (hsetsL ▸ hilt)⟩
  obtain ⟨sz, hsz⟩ : ∃ x, st.size[i]? = some x :=
    ⟨_, List.getElem?_eq_getElem (hsizeL ▸ hilt)⟩
  obtain ⟨ci, hci⟩ : ∃ x, cs[i]? = some x :=
    ⟨_, List.getElem?_eq_getElem (hcs ▸ hilt)⟩
  have hOk := hSets i sh sz ci hsh hsz hci
  obtain ⟨x, rest, hceq, hhead⟩ := hOk.2.2.1
  subst hceq
  have hchain : setChain st i = x :: rest := by
    simp only [setChain, hsh, hhead]
    have hle : (x :: rest).length ≤ st.heap.length + 1 :=
      (chain_length_le hOk.1 hOk.2.1).trans (Nat.le_succ _)
    simpa using chaseChain_eq hOk.1 hle
  by_cases hsz0 : sz = 0
  · have h0 := hOk.2.2.2
    rw [if_pos hsz0] at h0
    obtain ⟨htail, hlen1, hinval⟩ := h0
    have hfilter : (x :: rest).filter (fun p => p.2.valid) = [] := by
      rw [List.filter_eq_nil]
      intro p hp
      rw [hinval p hp]
      simp
    constructor
    · simp only [validCount, hchain, hfilter, List.length_nil]
      omega
    · simp only [setTags, hchain, hfilter, List.map_nil]
      exact List.nodup_nil
  · have h0 := hOk.2.2.2
    rw [if_neg hsz0] at h0
    obtain ⟨hlast, hlen, hszE, hvalid, htags⟩ := h0
    have hfilter : (x :: rest).filter (fun p => p.2.valid) = x :: rest :=
      List.filter_eq_self.mpr (fun p hp => by rw [hvalid p hp])
    constructor
    · simp only [validCount, hchain, hfilter]
      omega
    · simp only [setTags, hchain, hfilter]
      exact htags

/-- Claim C6: every state reachable from the fresh cache by any sequence of
accesses (with any malloc behaviour) satisfies the two set invariants: at most
`E` valid blocks per set, and no duplicate tags among a set's valid blocks. -/
theorem reachable_set_invariants (s b E : Nat) (g : CacheState → Nat)
    (addrs : List Nat) (st : CacheState) (hE : 1 ≤ E)
    (h : runAddrsA s b E g addrs (freshCache s) = some st) :
    SetInvariants E st :=
  Inv_SetInvariants (runAddrsA_inv hE (Inv_freshCache s E) h)

theorem reachable_set_invariants_witness : SetInvariants 2 stRun3 :=
  reachable_set_invariants 0 0 2 (fun st => freshId st.heap) [0, 1, 16] stRun3
    (by decide) (by decide)

/-- Claim C10: from any reachable state, one `accessData` call leaves every set
other than the addressed one untouched: same head/tail record, same size entry,
and the same list of blocks in the same order. -/
theorem access_touches_one_set (s b E f a : Nat) (g : CacheState → Nat)
    (addrs : List Nat) (st st2 : CacheState) (hE : 1 ≤ E)
    (hreach : runAddrsA s b E g addrs (freshCache s) = some st)
    (h : accessData s b E f a st = some st2) :
    ∀ j, j ≠ setIndexOf s b a →
      st2.sets[j]? = st.sets[j]? ∧ st2.size[j]? = st.size[j]?
        ∧ setChain st2 j = setChain st j :=
  (accessData_step hE (runAddrsA_inv hE (Inv_freshCache s E) hreach) h).2

theorem access_touches_one_set_witness :
    stTwoSets.sets[1]? = (freshCache 1).sets[1]?
      ∧ stTwoSets.size[1]? = (freshCache 1).size[1]?
      ∧ setChain stTwoSets 1 = setChain (freshCache 1) 1 :=
  access_touches_one_set 1 0 1 2 0 (fun st => freshId st.heap) [] (freshCache 1) stTwoSets
    (by decide) (by decide) (by decide) 1 (by decide)

theorem freshId_not_mem (h : Heap) : freshId h ∉ keys h := by
  intro hm
  have := freshId_gt h _ hm
  omega

theorem runAddrsA_bisim {s b E : Nat} {g1 g2 : CacheState → Nat}
    (hE : 1 ≤ E) (hg1 : ValidAlloc g1) (hg2 : ValidAlloc g2) :
    ∀ (addrs : List Nat) (st : CacheState) (r : Nat → Nat),
      Function.Injective r → Inv s E st →
      observe (runAddrsA s b E g2 addrs (renameState r st))
        = observe (runAddrsA s b E g1 addrs st)
  | [], st, r, hinj, hInv => by
    simp [runAddrsA, observe, renameState_hits, renameState_misses, renameState_evictions]
  | a :: rest, st, r, hinj, hInv => by
    simp only [runAddrsA]
    have hval1 : g1 st ∉ keys st.heap := hg1 st
    have hval2 : g2 (renameState r st) ∉ keys (renameState r st).heap := hg2 _
    generalize hgen : g2 (renameState r st) = f2 at hval2 ⊢
    have hinj2 : Function.Injective (fun k => Equiv.swap (r (g1 st)) f2 (r k)) :=
      fun x y hxy => hinj ((Equiv.swap _ _).injective hxy)
    have hag : ∀ k ∈ keys st.heap,
        (fun k => Equiv.swap (r (g1 st)) f2 (r k)) k = r k := by
      intro k hk
      apply Equiv.swap_apply_of_ne_of_ne
      · exact fun he => hval1 (by rwa [hinj he] at hk)
      · intro he
        apply hval2
        rw [renameState_heap, keys_renameHeap]
        exact he ▸ List.mem_map_of_mem r hk
    have hst2 : renameState r st
        = renameState (fun k => Equiv.swap (r (g1 st)) f2 (r k)) st :=
      (renameState_agree (Inv_ptrClosed hInv) hag).symm
    have hf2 : (fun k => Equiv.swap (r (g1 st)) f2 (r k)) (g1 st) = f2 :=
      Equiv.swap_apply_left ..
    rw [← hf2, hst2, accessData_renameState hinj2 s b E (g1 st) a st]
    cases hacc : accessData s b E (g1 st) a st with
    | none => rfl
    | some st1 =>
      simp only [Option.map_some']
      have hInv1 : Inv s E st1 := (accessData_step hE hInv hacc).1
      exact runAddrsA_bisim hE hg1 hg2 rest st1 _ hinj2 hInv1

/-- Claim C9: the printed (hits, misses, evictions) triple is a deterministic
function of the configuration and the record sequence: two replays from freshly
built caches agree for ANY two well-behaved malloc behaviours. -/
theorem replay_deterministic (s b E : Nat) (g1 g2 : CacheState → Nat)
    (recs : List TraceRec) (hE : 1 ≤ E) (hg1 : ValidAlloc g1) (hg2 : ValidAlloc g2) :
    observe (replayTraceA s b E g1 recs (freshCache s))
      = observe (replayTraceA s b E g2 recs (freshCache s)) := by
  have h0 := runAddrsA_bisim (b := b) hE hg1 hg2 (recs.map recAddrs).flatten (freshCache s)
    id (fun x y h => h) (Inv_freshCache s E)
  rw [renameState_id] at h0
  exact h0.symm

theorem replay_deterministic_witness :
    observe (replayTraceA 0 0 1 (fun st => freshId st.heap)
        [TraceRec.load 0, TraceRec.load 0] (freshCache 0))
      = observe (replayTraceA 0 0 1 (fun st => freshId st.heap + 1)
        [TraceRec.load 0, TraceRec.load 0] (freshCache 0)) :=
  replay_deterministic 0 0 1 _ _ _ (by decide)
    (fun st => freshId_not_mem st.heap) (fun st => freshId_fresh st.heap 1)

end Cachelab
